import Mathlib

/-
Verification of the gazette text-structuring core (`gazette/utils.py`,
duplicated in `extract_gazette.py`): the HTML normalizer `html_to_text`,
the line/article boundary scan of `extract_to_excel`, the Chinese
paragraph merger `merge_chinese_lines`, and the segment classifier
`classify_segment`.  Strings are modelled as `List Char`; the Python
regular-expression substitutions are modelled by direct recursive
functions implementing their leftmost, greedy semantics.
-/

namespace Gazette

/-- Characters treated as whitespace by Python's `str.strip` and by the
regex class `\s` on `str` patterns (CPython's Unicode whitespace table). -/
def isPySpace (c : Char) : Bool :=
  c == ' ' || c == '\t' || c == '\n' || c == '\r' || c == '\u000B' || c == '\u000C' ||
  c == '\u001C' || c == '\u001D' || c == '\u001E' || c == '\u001F' ||
  c == '\u0085' || c == ' ' || c == ' ' ||
  (0x2000 ≤ c.toNat && c.toNat ≤ 0x200A) ||
  c == ' ' || c == ' ' || c == ' ' || c == ' ' || c == '　'

/-- The character class `[ \t]` of step 4 of the normalizer. -/
def isHoriz (c : Char) : Bool := c == ' ' || c == '\t'

/-- Python `str.lstrip()`. -/
def pyLTrim (s : List Char) : List Char := s.dropWhile isPySpace

/-- Python `str.rstrip()`. -/
def pyRTrim (s : List Char) : List Char := (s.reverse.dropWhile isPySpace).reverse

/-- Python `str.strip()`. -/
def pyStrip (s : List Char) : List Char := pyRTrim (pyLTrim s)

/-- Partial-match state of the scanner for `re.sub(r"<br\s*/?>", ...)`:
how much of the pattern has been seen since the opening `<`. -/
inductive BrPhase
  | lt
  | ltb
  | ltbr
  | ltbrSlash
deriving DecidableEq, Repr

/-- Step 1 of `html_to_text`: `re.sub(r"<br\s*/?>", "\n", html,
flags=re.IGNORECASE)` as a left-to-right scanner.  `st` is `none` outside a
potential match, or the phase plus the pending matched characters (reversed).
On failure the pending text is emitted verbatim and scanning resumes at the
current character: this is equivalent to the regex engine's retry at the next
position because a match can only start at `<`, and the pending text contains
`<` only as its first character, whose match attempt just failed. -/
def brGo : Option (BrPhase × List Char) → List Char → List Char
  | none, [] => []
  | some (_, pend), [] => pend.reverse
  | none, c :: cs =>
    if c = '<' then brGo (some (BrPhase.lt, [c])) cs else c :: brGo none cs
  | some (ph, pend), c :: cs =>
    match ph with
    | BrPhase.lt =>
      if c = 'b' ∨ c = 'B' then brGo (some (BrPhase.ltb, c :: pend)) cs
      else pend.reverse ++
        (if c = '<' then brGo (some (BrPhase.lt, [c])) cs else c :: brGo none cs)
    | BrPhase.ltb =>
      if c = 'r' ∨ c = 'R' then brGo (some (BrPhase.ltbr, c :: pend)) cs
      else pend.reverse ++
        (if c = '<' then brGo (some (BrPhase.lt, [c])) cs else c :: brGo none cs)
    | BrPhase.ltbr =>
      if c = '>' then '\n' :: brGo none cs
      else if c = '/' then brGo (some (BrPhase.ltbrSlash, c :: pend)) cs
      else if isPySpace c then brGo (some (BrPhase.ltbr, c :: pend)) cs
      else pend.reverse ++
        (if c = '<' then brGo (some (BrPhase.lt, [c])) cs else c :: brGo none cs)
    | BrPhase.ltbrSlash =>
      if c = '>' then '\n' :: brGo none cs
      else pend.reverse ++
        (if c = '<' then brGo (some (BrPhase.lt, [c])) cs else c :: brGo none cs)

def brSub (s : List Char) : List Char := brGo none s

/-- The number of `<br\s*/?>` matches in the input: the counting version of
the `brSub` scanner. -/
def brCntGo : Option (BrPhase × List Char) → List Char → Nat
  | _, [] => 0
  | none, c :: cs =>
    if c = '<' then brCntGo (some (BrPhase.lt, [c])) cs else brCntGo none cs
  | some (ph, pend), c :: cs =>
    match ph with
    | BrPhase.lt =>
      if c = 'b' ∨ c = 'B' then brCntGo (some (BrPhase.ltb, c :: pend)) cs
      else if c = '<' then brCntGo (some (BrPhase.lt, [c])) cs else brCntGo none cs
    | BrPhase.ltb =>
      if c = 'r' ∨ c = 'R' then brCntGo (some (BrPhase.ltbr, c :: pend)) cs
      else if c = '<' then brCntGo (some (BrPhase.lt, [c])) cs else brCntGo none cs
    | BrPhase.ltbr =>
      if c = '>' then 1 + brCntGo none cs
      else if c = '/' then brCntGo (some (BrPhase.ltbrSlash, c :: pend)) cs
      else if isPySpace c then brCntGo (some (BrPhase.ltbr, c :: pend)) cs
      else if c = '<' then brCntGo (some (BrPhase.lt, [c])) cs else brCntGo none cs
    | BrPhase.ltbrSlash =>
      if c = '>' then 1 + brCntGo none cs
      else if c = '<' then brCntGo (some (BrPhase.lt, [c])) cs else brCntGo none cs

def brCount (s : List Char) : Nat := brCntGo none s

/-- Step 2 of `html_to_text`: `re.sub(r"<[^>]+>", "", html)` as a scanner.
`st` is `none` outside a tag span, or the pending characters since the
opening `<` (reversed, `<` included).  A span `<...>` with at least one
inner character is dropped; `<>` is not a match and is emitted (no match can
start at its `>`); at end of input the pending text cannot be completed by
any `>` and is emitted. -/
def stGo : Option (List Char) → List Char → List Char
  | none, [] => []
  | some pend, [] => pend.reverse
  | none, c :: cs => if c = '<' then stGo (some [c]) cs else c :: stGo none cs
  | some pend, c :: cs =>
    if c = '>' then
      if 2 ≤ pend.length then stGo none cs
      else pend.reverse ++ '>' :: stGo none cs
    else stGo (some (c :: pend)) cs

def stripTags (s : List Char) : List Char := stGo none s

/-- Python `str.replace(pat, rep)` (every non-overlapping occurrence, left to
right), with explicit fuel for structural recursion; each step consumes at
least one input character, so `fuel = s.length` never runs out. -/
def replaceAllF : Nat → List Char → List Char → List Char → List Char
  | 0, _, _, s => s
  | _ + 1, _, _, [] => []
  | fuel + 1, pat, rep, c :: cs =>
    if pat.isPrefixOf (c :: cs) ∧ pat ≠ [] then
      rep ++ replaceAllF fuel pat rep ((c :: cs).drop pat.length)
    else c :: replaceAllF fuel pat rep cs

def replaceAll (pat rep s : List Char) : List Char :=
  replaceAllF s.length pat rep s

/-- Step 3 of `html_to_text`: the chained entity replacements
`&nbsp;`, `&amp;`, `&lt;`, `&gt;` in that order. -/
def entities (s : List Char) : List Char :=
  replaceAll "&gt;".data ">".data
    (replaceAll "&lt;".data "<".data
      (replaceAll "&amp;".data "&".data
        (replaceAll "&nbsp;".data " ".data s)))

/-- Step 4 of `html_to_text`: `re.sub(r"[ \t]+", " ", text)` — each maximal
run of spaces/tabs becomes one space.  `inRun` records whether the previous
character was part of a space/tab run. -/
def cSpGo (inRun : Bool) : List Char → List Char
  | [] => []
  | c :: cs =>
    if isHoriz c then (if inRun then [] else [' ']) ++ cSpGo true cs
    else c :: cSpGo false cs

def collapseSpaces (s : List Char) : List Char := cSpGo false s

/-- Emission of a finished whitespace run for `collapseNL`: a run containing
a newline becomes a single newline, any other run is kept as it is. -/
def flushNL (buf : List Char) : List Char :=
  if buf.contains '\n' then ['\n'] else buf

/-- Step 5 of `html_to_text`: `re.sub(r"\s*\n\s*", "\n", text)` — each
maximal whitespace run containing a newline becomes a single newline.  `buf`
accumulates the current whitespace run. -/
def cNLGo (buf : List Char) : List Char → List Char
  | [] => flushNL buf
  | c :: cs =>
    if isPySpace c then cNLGo (buf ++ [c]) cs
    else flushNL buf ++ c :: cNLGo [] cs

def collapseNL (s : List Char) : List Char := cNLGo [] s

/-- `html_to_text` from `gazette/utils.py` (identical copy in
`extract_gazette.py`). -/
def html_to_text (s : List Char) : List Char :=
  if s = [] then []
  else pyStrip (collapseNL (collapseSpaces (entities (stripTags (brSub s)))))

/-- Python `str.split("\n")`. -/
def splitNl : List Char → List (List Char)
  | [] => [[]]
  | c :: cs =>
    if c = '\n' then [] :: splitNl cs
    else
      match splitNl cs with
      | l :: ls => (c :: l) :: ls
      | [] => [[c]]

/-- 1-based numbering, as `enumerate(..., start=k)`. -/
def numberFrom (k : Nat) : List α → List (Nat × α)
  | [] => []
  | x :: xs => (k, x) :: numberFrom (k + 1) xs

/-- The `non_empty_lines` list of `extract_to_excel`: split the normalized
text on newlines, number lines from 1, strip each, drop blanks (their line
number is consumed). -/
def nonEmptyLines (s : List Char) : List (Nat × List Char) :=
  (numberFrom 1 (splitNl s)).filterMap fun p =>
    if pyStrip p.2 = [] then none else some (p.1, pyStrip p.2)

/-- Character class of the article pattern
`[一二三四五六七八九十零〇百千0-9]`. -/
def numeralChar (c : Char) : Bool := "一二三四五六七八九十零〇百千0123456789".data.contains c

/-- `article_pattern.match(text)`:
`^第\s*([一二三四五六七八九十零〇百千0-9]+)\s*條`; returns the captured
numeral run on success. -/
def matchArticle (l : List Char) : Option (List Char) :=
  match l with
  | [] => none
  | c :: rest =>
    if c = '第' then
      let r1 := rest.dropWhile isPySpace
      let num := r1.takeWhile numeralChar
      if num = [] then none
      else
        match (r1.dropWhile numeralChar).dropWhile isPySpace with
        | d :: _ => if d = '條' then some num else none
        | [] => none
    else none

/-- Whether a line is an article boundary line. -/
def isBoundary (l : List Char) : Bool := (matchArticle l).isSome

/-- One row of the Articles sheet. -/
structure Article where
  article_no : List Char
  title_line : List Char
  line_start : Nat
  line_end : Nat
  text : List Char
deriving DecidableEq, Repr

/-- The in-progress article of the scan: `current_article_no`,
`current_title_line`, `current_start_line`, `current_lines`, `last_line_no`. -/
structure ArtState where
  no : List Char
  title : List Char
  start : Nat
  body : List (List Char)
  last : Nat
deriving DecidableEq, Repr

/-- Python `"\n".join(lines)`. -/
def joinNl : List (List Char) → List Char
  | [] => []
  | [t] => t
  | t :: ts => t ++ '\n' :: joinNl ts

/-- The Articles row written for a finished article:
`"\n".join(current_lines).strip()` together with the bookkeeping fields. -/
def emitArticle (s : ArtState) : Article :=
  ⟨s.no, s.title, s.start, s.last, pyStrip (joinNl s.body)⟩

/-- One iteration of the article boundary scan loop in `extract_to_excel`:
returns the new state and the articles written during this iteration. -/
def stepArt (st : Option ArtState) (ln : Nat × List Char) :
    Option ArtState × List Article :=
  match matchArticle ln.2 with
  | some num =>
    (some ⟨num, ln.2, ln.1, [], ln.1⟩,
     match st with
     | some s => if s.body ≠ [] then [emitArticle s] else []
     | none => [])
  | none =>
    match st with
    | some s => (some { s with body := s.body ++ [ln.2], last := ln.1 }, [])
    | none => (none, [])

/-- The write-out after the loop: the accumulating article is written iff its
body is non-empty. -/
def finalFlush : Option ArtState → List Article
  | some s => if s.body ≠ [] then [emitArticle s] else []
  | none => []

/-- The scan from an arbitrary state. -/
def scanGo (st : Option ArtState) : List (Nat × List Char) → List Article
  | [] => finalFlush st
  | l :: ls => (stepArt st l).2 ++ scanGo (stepArt st l).1 ls

/-- The article boundary scan of `extract_to_excel` over the non-empty
line sequence of one record. -/
def scanArticles (lines : List (Nat × List Char)) : List Article :=
  scanGo none lines

/-- The scan state after processing a prefix of the lines. -/
def stAfter (st : Option ArtState) : List (Nat × List Char) → Option ArtState
  | [] => st
  | l :: ls => stAfter (stepArt st l).1 ls

/-- The articles written while processing a prefix of the lines (without the
final flush). -/
def outPre (st : Option ArtState) : List (Nat × List Char) → List Article
  | [] => []
  | l :: ls => (stepArt st l).2 ++ outPre (stepArt st l).1 ls

/-- C4's hypothesis on the scanned sequence: every boundary line is
immediately followed (within the sequence) by a non-boundary line. -/
def followedOk : List (Nat × List Char) → Bool
  | [] => true
  | [x] => !(isBoundary x.2)
  | x :: y :: rest => (!(isBoundary x.2) || !(isBoundary y.2)) && followedOk (y :: rest)

/-- How many articles the current state will still contribute. -/
def stCnt : Option ArtState → Nat
  | none => 0
  | some _ => 1

/-- Invariant of the scan states reached under C4's hypothesis: an article
in progress with empty body was just opened (`start = last`) and is about to
receive a body line; one with a non-empty body already spans
`start < last`. -/
def StOk : Option ArtState → List (Nat × List Char) → Prop
  | none, _ => True
  | some s, xs =>
      (s.body = [] → s.start = s.last ∧ ∃ y ys, xs = y :: ys ∧ isBoundary y.2 = false) ∧
      (s.body ≠ [] → s.start < s.last)

/-- End-to-end per record: HTML normalization, line split/numbering, scan. -/
def recordArticles (html : List Char) : List Article :=
  scanArticles (nonEmptyLines (html_to_text html))

/-- The terminator set of `merge_chinese_lines`. -/
def endPunct : List Char := "。！？；：!?;:".data

/-- `line[-1] in end_punct` for a non-empty line. -/
def lastIsPunct (l : List Char) : Bool :=
  match l.getLast? with
  | some c => endPunct.contains c
  | none => false

/-- The loop of `merge_chinese_lines` with explicit buffer. -/
def mergeGo (buffer : List (List Char)) : List (List Char) → List (List Char)
  | [] => if buffer ≠ [] then [pyStrip buffer.flatten] else []
  | raw :: rest =>
    if pyStrip raw = [] then
      (if buffer ≠ [] then [pyStrip buffer.flatten] else []) ++ mergeGo [] rest
    else
      if lastIsPunct (pyStrip raw) then
        pyStrip ((buffer ++ [pyStrip raw]).flatten) :: mergeGo [] rest
      else mergeGo (buffer ++ [pyStrip raw]) rest

/-- `merge_chinese_lines` from `gazette/utils.py`. -/
def merge_chinese_lines (lines : List (List Char)) : List (List Char) :=
  mergeGo [] lines

/-- Flush trigger as worded by the claim, on the trimmed current line: the
line is blank, or its last character is a terminator.  (Reference definition
following the spec's words, for comparison with the source scanner.) -/
def flushHere (t : List Char) : Bool := t.isEmpty || lastIsPunct t

/-- Reference merger following the claim's words: the buffer is flushed
exactly on a trigger line or at end of input with a non-empty buffer; a
flush yields the joined (no separator), trimmed concatenation, including the
trigger line itself when the trigger was a terminator; flushing an empty
buffer on a blank line yields nothing. -/
def mergeSpecFrom (buf : List (List Char)) : List (List Char) → List (List Char)
  | [] => if buf = [] then [] else [pyStrip buf.flatten]
  | l :: rest =>
    if flushHere (pyStrip l) then
      if (pyStrip l).isEmpty then
        (if buf = [] then [] else [pyStrip buf.flatten]) ++ mergeSpecFrom [] rest
      else pyStrip ((buf ++ [pyStrip l]).flatten) :: mergeSpecFrom [] rest
    else mergeSpecFrom (buf ++ [pyStrip l]) rest

/-- Reference merger for a whole input. -/
def mergeSpecFlush (lines : List (List Char)) : List (List Char) :=
  mergeSpecFrom [] lines

/-- Item pattern `^[一二三四五六七八九十]+\s*、`. -/
def basicNum (c : Char) : Bool := "一二三四五六七八九十".data.contains c

def matchItem (t : List Char) : Bool :=
  t.takeWhile basicNum ≠ [] &&
    match (t.dropWhile basicNum).dropWhile isPySpace with
    | c :: _ => c == '、'
    | [] => false

/-- SubItem pattern `^[（(]?[一二三四五六七八九十0-9]+[)）．\.、]`. -/
def subNum (c : Char) : Bool := "一二三四五六七八九十0123456789".data.contains c

def closerChar (c : Char) : Bool := ")）．.、".data.contains c

def matchSubItem (t : List Char) : Bool :=
  let t1 := match t with
            | c :: rest => if c = '（' || c = '(' then rest else c :: rest
            | [] => []
  t1.takeWhile subNum ≠ [] &&
    match t1.dropWhile subNum with
    | c :: _ => closerChar c
    | [] => false

/-- `classify_segment` from `gazette/utils.py`. -/
def classify_segment (text : List Char) (page : Nat) (seg_no : Nat) : String :=
  let t := pyStrip text
  if page = 1 ∧ seg_no ≤ 3 then "Header"
  else if (matchArticle t).isSome then "ArticleTitle"
  else if matchItem t then "Item"
  else if matchSubItem t then "SubItem"
  else "Body"

/-- One `br` separator of C5's input family: the literal `<br>` or `<br/>`. -/
def brTag (slash : Bool) : List Char :=
  if slash then "<br/>".data else "<br>".data

/-- Inputs considered by C5: plain-text chunks joined by `<br>`/`<br/>`
tags (the input "contains only `<br>`/`<br/>` tags and plain text"); the
form of each separator is chosen by the corresponding entry of `gs`. -/
def joinBr : List (List Char) → List Bool → List Char
  | [], _ => []
  | [t], _ => t
  | t :: ts, gs => t ++ brTag gs.headI ++ joinBr ts gs.tail

/-- Adjacent-pair checker: `noPair bad l = true` when no two adjacent
characters of `l` form a `bad` pair. -/
def noPair (bad : Char → Char → Bool) : List Char → Bool
  | a :: b :: rest => !(bad a b) && noPair bad (b :: rest)
  | _ => true

/-- Adjacencies ruled out by the whitespace normal form of the normalizer's
output: whitespace next to a newline on either side (this includes two
newlines and a space next to a newline), and two spaces. -/
def badPair (a b : Char) : Bool :=
  (isPySpace a && b == '\n') || (a == '\n' && isPySpace b) || (a == ' ' && b == ' ')

/-- Two adjacent spaces. -/
def dblSp (a b : Char) : Bool := a == ' ' && b == ' '

/-- Line-break characters of Python `str.splitlines()`. -/
def isLineBreak (c : Char) : Bool :=
  c == '\n' || c == '\r' || c == '\u000B' || c == '\u000C' ||
  c == '\u001C' || c == '\u001D' || c == '\u001E' ||
  c == '\u0085' || c == ' ' || c == ' '

def splitlinesGo (cur : List Char) : List Char → List (List Char)
  | [] => if cur = [] then [] else [cur.reverse]
  | '\r' :: '\n' :: cs2 => cur.reverse :: splitlinesGo [] cs2
  | '\r' :: cs => cur.reverse :: splitlinesGo [] cs
  | c :: cs =>
    if isLineBreak c then cur.reverse :: splitlinesGo [] cs
    else splitlinesGo (c :: cur) cs

/-- Python `str.splitlines()`. -/
def pySplitlines (s : List Char) : List (List Char) := splitlinesGo [] s

/-- The per-page segment list of `extract_pdf_to_excel`: strip each raw
line, drop blanks, merge into paragraphs. -/
def pdfPageSegments (text : List Char) : List (List Char) :=
  merge_chinese_lines
    ((pySplitlines text).filterMap fun l =>
      if pyStrip l = [] then none else some (pyStrip l))

/-- The rows `(SegmentNo, Text, Type)` written for one PDF page. -/
def pdfPageRows (text : List Char) (page : Nat) : List (Nat × List Char × String) :=
  (numberFrom 1 (pdfPageSegments text)).map fun p =>
    (p.1, p.2, classify_segment p.2 page p.1)

/-! Theorems for the claims. -/

theorem brGo_no_gt {s : List Char} (h : '>' ∉ s) :
    brGo none s = s ∧ ∀ ph pend, brGo (some (ph, pend)) s = pend.reverse ++ s := by
  induction s with
  | nil => simp [brGo]
  | cons c cs ih =>
    have hc : c ≠ '>' := fun hc => h (hc ▸ List.mem_cons_self c cs)
    have hcs : '>' ∉ cs := fun hm => h (List.mem_cons_of_mem _ hm)
    obtain ⟨ih1, ih2⟩ := ih hcs
    refine ⟨?_, ?_⟩
    · simp only [brGo]
      by_cases h1 : c = '<'
      · simp [h1, ih2]
      · simp [h1, ih1]
    · intro ph pend
      cases ph <;> simp only [brGo] <;> split_ifs <;>
        simp_all [ih1, ih2, List.reverse_cons]

theorem stGo_no_gt {s : List Char} (h : '>' ∉ s) :
    stGo none s = s ∧ ∀ pend, stGo (some pend) s = pend.reverse ++ s := by
  induction s with
  | nil => simp [stGo]
  | cons c cs ih =>
    have hc : c ≠ '>' := fun hc => h (hc ▸ List.mem_cons_self c cs)
    have hcs : '>' ∉ cs := fun hm => h (List.mem_cons_of_mem _ hm)
    obtain ⟨ih1, ih2⟩ := ih hcs
    refine ⟨?_, ?_⟩
    · simp only [stGo]
      by_cases h1 : c = '<'
      · simp [h1, ih2]
      · simp [h1, ih1]
    · intro pend
      simp only [stGo]
      rw [if_neg hc, ih2]
      simp

theorem eq_append_drop_of_isPrefixOf :
    ∀ {p l : List Char}, p.isPrefixOf l = true → l = p ++ l.drop p.length := by
  intro p
  induction p with
  | nil => intro l _; simp
  | cons a p ih =>
    intro l h
    match l with
    | [] => simp [List.isPrefixOf] at h
    | b :: l' =>
      simp only [List.isPrefixOf, Bool.and_eq_true, beq_iff_eq] at h
      obtain ⟨rfl, h2⟩ := h
      simpa using ih h2

theorem mem_replaceAllF {c : Char} {pat rep : List Char} (hc : c ∉ pat) :
    ∀ f s, c ∈ s → c ∈ replaceAllF f pat rep s := by
  intro f
  induction f with
  | zero => intro s hs; simpa [replaceAllF] using hs
  | succ f ih =>
    intro s hs
    match s with
    | [] => simp at hs
    | d :: cs =>
      simp only [replaceAllF]
      split_ifs with h1
      · obtain ⟨hpre, -⟩ := h1
        have hsplit := eq_append_drop_of_isPrefixOf hpre
        rw [hsplit] at hs
        rcases List.mem_append.mp hs with h | h
        · exact absurd h hc
        · exact List.mem_append_right _ (ih _ h)
      · rcases List.mem_cons.mp hs with h | h
        · exact h ▸ List.mem_cons_self _ _
        · exact List.mem_cons_of_mem _ (ih _ h)

theorem mem_cSpGo {c : Char} (hc : isHoriz c = false) :
    ∀ s b, c ∈ s → c ∈ cSpGo b s := by
  intro s
  induction s with
  | nil => intro b hs; simp at hs
  | cons d cs ih =>
    intro b hs
    simp only [cSpGo]
    by_cases h1 : isHoriz d = true
    · rw [if_pos h1]
      rcases List.mem_cons.mp hs with h | h
      · rw [h] at hc; rw [hc] at h1; cases h1
      · exact List.mem_append_right _ (ih true h)
    · rw [if_neg h1]
      rcases List.mem_cons.mp hs with h | h
      · exact h ▸ List.mem_cons_self _ _
      · exact List.mem_cons_of_mem _ (ih false h)

theorem mem_cNLGo {c : Char} (hc : isPySpace c = false) :
    ∀ s buf, c ∈ s → c ∈ cNLGo buf s := by
  intro s
  induction s with
  | nil => intro buf hs; simp at hs
  | cons d cs ih =>
    intro buf hs
    simp only [cNLGo]
    split_ifs with h1
    · rcases List.mem_cons.mp hs with h | h
      · rw [h] at hc; rw [hc] at h1; cases h1
      · exact ih _ h
    · rcases List.mem_cons.mp hs with h | h
      · exact List.mem_append_right _ (h ▸ List.mem_cons_self _ _)
      · exact List.mem_append_right _ (List.mem_cons_of_mem _ (ih _ h))

theorem mem_dropWhile_of_neg {c : Char} {p : Char → Bool} (hc : p c = false) :
    ∀ s : List Char, c ∈ s → c ∈ s.dropWhile p := by
  intro s
  induction s with
  | nil => intro hs; simp at hs
  | cons d cs ih =>
    intro hs
    rcases List.mem_cons.mp hs with h | h
    · subst h
      rw [List.dropWhile_cons, hc]
      simp
    · rw [List.dropWhile_cons]
      split_ifs with h1
      · exact ih h
      · exact List.mem_cons_of_mem _ h

theorem mem_pyStrip {c : Char} (hc : isPySpace c = false) {s : List Char}
    (h : c ∈ s) : c ∈ pyStrip s := by
  unfold pyStrip pyRTrim pyLTrim
  have h1 : c ∈ s.dropWhile isPySpace := mem_dropWhile_of_neg hc s h
  have h2 : c ∈ (s.dropWhile isPySpace).reverse := List.mem_reverse.mpr h1
  have h3 := mem_dropWhile_of_neg hc _ h2
  exact List.mem_reverse.mpr h3


/-- C1: a record whose `HTMLContent` is `第一條<br>內容一<br>第二條<br>內容二`
yields exactly the two Articles `(一, 第一條, 1, 2, 內容一)` and
`(二, 第二條, 3, 4, 內容二)` after HTML normalization, line numbering and the
article boundary scan. -/
theorem C1_scenario_a :
    recordArticles "第一條<br>內容一<br>第二條<br>內容二".data =
      [⟨"一".data, "第一條".data, 1, 2, "內容一".data⟩,
       ⟨"二".data, "第二條".data, 3, 4, "內容二".data⟩] := by
  decide

/-- C2 counterexample: the PDF page text `第1頁標題\n一、項目一。\n內文。` does
not yield 3 segments as claimed — the merger joins the first two lines
(`第1頁標題` has no terminal punctuation), so only 2 segments are produced. -/
theorem C2_counterexample :
    (pdfPageSegments "第1頁標題\n一、項目一。\n內文。".data).length ≠ 3 := by
  decide

/-- C2 amended: the PDF page text `第1頁標題\n一、項目一。\n內文。` yields 2
segments: segment 1 is `第1頁標題一、項目一。` and segment 2 is `內文。`, and
both are classified `Header` because both have position `≤ 3` on page 1. -/
theorem C2_amended :
    pdfPageRows "第1頁標題\n一、項目一。\n內文。".data 1 =
      [(1, "第1頁標題一、項目一。".data, "Header"),
       (2, "內文。".data, "Header")] := by
  decide

/-- C5 counterexample: the input `<br>` consists only of a `br` tag, but the
normalized output is empty (the lone newline is stripped), so it has 1 line,
not `brCount + 1 = 2`. -/
theorem C5_counterexample :
    brCount "<br>".data = 1 ∧
    (splitNl (html_to_text "<br>".data)).length ≠ brCount "<br>".data + 1 := by
  decide

/-- C7: the classifier's rules apply in order with first match winning: any
segment at position `≤ 3` of page 1 is `Header` whatever its text, and
outside that case any text matching the article-title pattern is
`ArticleTitle` (in particular also when it matches the `Item` pattern too,
which is the case the claim singles out). -/
theorem C7_rule_order :
    (∀ t p n, p = 1 → n ≤ 3 → classify_segment t p n = "Header") ∧
    (∀ t p n, (matchArticle (pyStrip t)).isSome = true → ¬(p = 1 ∧ n ≤ 3) →
      classify_segment t p n = "ArticleTitle") := by
  constructor
  · intro t p n hp hn
    subst hp
    simp [classify_segment, hn]
  · intro t p n hm hpn
    simp [classify_segment, hpn, hm]

/-- Witness for C7: both rules exercised at concrete inputs. -/
theorem C7_witness :
    classify_segment "內文".data 1 2 = "Header" ∧
    classify_segment "第十條、測試".data 2 9 = "ArticleTitle" :=
  ⟨C7_rule_order.1 "內文".data 1 2 rfl (by decide),
   C7_rule_order.2 "第十條、測試".data 2 9 (by decide) (by decide)⟩

theorem mergeGo_eq_spec : ∀ (lines : List (List Char)) (buf : List (List Char)),
    mergeGo buf lines = mergeSpecFrom buf lines := by
  intro lines
  induction lines with
  | nil => intro buf; by_cases h : buf = [] <;> simp [mergeGo, mergeSpecFrom, h]
  | cons l rest ih =>
    intro buf
    by_cases hb : pyStrip l = []
    · have hf : flushHere (pyStrip l) = true := by simp [flushHere, hb]
      by_cases h : buf = [] <;>
        simp [mergeGo, mergeSpecFrom, hb, hf, h, ih, flushHere]
    · by_cases hp : lastIsPunct (pyStrip l)
      · have hf : flushHere (pyStrip l) = true := by simp [flushHere, hp]
        simp [mergeGo, mergeSpecFrom, hb, hp, hf, ih, List.isEmpty_iff]
      · have hf : flushHere (pyStrip l) = false := by
          simp [flushHere, List.isEmpty_iff, hb, hp]
        simp [mergeGo, mergeSpecFrom, hb, hp, hf, ih]

/-- C6: the paragraph merger flushes exactly on blank lines, terminator-final
lines, and end of input with a non-empty buffer, yielding the joined trimmed
concatenation with no separator (reference definition `mergeSpecFlush`
written from the claim's words); in particular merging `["一"]` yields
exactly `["一"]`. -/
theorem C6_flush_characterization :
    (∀ lines, merge_chinese_lines lines = mergeSpecFlush lines) ∧
    merge_chinese_lines [['一']] = [['一']] :=
  ⟨fun lines => mergeGo_eq_spec lines [], by decide⟩

theorem scanGo_append : ∀ (xs : List (Nat × List Char)) (st : Option ArtState)
    (ys : List (Nat × List Char)),
    scanGo st (xs ++ ys) = outPre st xs ++ scanGo (stAfter st xs) ys := by
  intro xs
  induction xs with
  | nil => intro st ys; simp [outPre, stAfter]
  | cons l ls ih =>
    intro st ys
    simp only [List.cons_append, scanGo, outPre, stAfter, List.append_assoc,
      List.append_eq, ih]

theorem outPre_starts : ∀ (xs : List (Nat × List Char)) (st : Option ArtState)
    (art : Article), art ∈ outPre st xs →
    (∃ s, st = some s ∧ art.line_start = s.start) ∨ ∃ l ∈ xs, art.line_start = l.1 := by
  intro xs
  induction xs with
  | nil => intro st art h; simp [outPre] at h
  | cons l ls ih =>
    intro st art h
    simp only [outPre] at h
    rcases List.mem_append.mp h with h1 | h1
    · rcases hM : matchArticle l.2 with _ | num
      · rcases st with _ | s <;> simp [stepArt, hM] at h1
      · rcases st with _ | s
        · simp [stepArt, hM] at h1
        · simp only [stepArt, hM] at h1
          by_cases hb : s.body = []
          · simp [hb] at h1
          · simp [hb] at h1
            subst h1
            exact Or.inl ⟨s, rfl, rfl⟩
    · rcases ih _ _ h1 with ⟨s1, hs1, hstart⟩ | ⟨l', hl', hstart⟩
      · rcases hM : matchArticle l.2 with _ | num
        · rcases st with _ | s
          · simp [stepArt, hM] at hs1
          · simp only [stepArt, hM] at hs1
            cases hs1
            exact Or.inl ⟨s, rfl, hstart⟩
        · simp only [stepArt, hM] at hs1
          cases hs1
          exact Or.inr ⟨l, List.mem_cons_self _ _, hstart⟩
      · exact Or.inr ⟨l', List.mem_cons_of_mem _ hl', hstart⟩

theorem stAfter_start : ∀ (xs : List (Nat × List Char)) (st : Option ArtState)
    (s' : ArtState), stAfter st xs = some s' →
    (∃ s, st = some s ∧ s'.start = s.start) ∨ ∃ l ∈ xs, s'.start = l.1 := by
  intro xs
  induction xs with
  | nil =>
    intro st s' h
    simp only [stAfter] at h
    exact Or.inl ⟨s', h, rfl⟩
  | cons l ls ih =>
    intro st s' h
    simp only [stAfter] at h
    rcases ih _ _ h with ⟨s1, hs1, hstart⟩ | hin
    · rcases hM : matchArticle l.2 with _ | num
      · rcases st with _ | s
        · simp [stepArt, hM] at hs1
        · simp only [stepArt, hM] at hs1
          cases hs1
          exact Or.inl ⟨s, rfl, hstart⟩
      · simp only [stepArt, hM] at hs1
        cases hs1
        exact Or.inr ⟨l, List.mem_cons_self _ _, hstart⟩
    · rcases hin with ⟨l', hl', he⟩
      exact Or.inr ⟨l', List.mem_cons_of_mem _ hl', he⟩

theorem scanGo_lower : ∀ (xs : List (Nat × List Char)) (st : Option ArtState) (k : Nat),
    (∀ l ∈ xs, k < l.1) → (∀ s, st = some s → k < s.start) →
    ∀ art ∈ scanGo st xs, k < art.line_start := by
  intro xs
  induction xs with
  | nil =>
    intro st k _ hst art h
    rcases st with _ | s
    · simp [scanGo, finalFlush] at h
    · simp only [scanGo, finalFlush] at h
      by_cases hb : s.body = []
      · simp [hb] at h
      · simp [hb] at h
        subst h
        exact hst s rfl
  | cons l ls ih =>
    intro st k hxs hst art h
    simp only [scanGo] at h
    rcases List.mem_append.mp h with h1 | h1
    · rcases hM : matchArticle l.2 with _ | num
      · rcases st with _ | s <;> simp [stepArt, hM] at h1
      · rcases st with _ | s
        · simp [stepArt, hM] at h1
        · simp only [stepArt, hM] at h1
          by_cases hb : s.body = []
          · simp [hb] at h1
          · simp [hb] at h1
            subst h1
            exact hst s rfl
    · refine ih _ k (fun l' hl' => hxs l' (List.mem_cons_of_mem _ hl')) ?_ art h1
      intro s1 hs1
      rcases hM : matchArticle l.2 with _ | num
      · rcases st with _ | s
        · simp [stepArt, hM] at hs1
        · simp only [stepArt, hM] at hs1
          cases hs1
          exact hst s rfl
      · simp only [stepArt, hM] at hs1
        cases hs1
        exact hxs l (List.mem_cons_self _ _)

/-- C3: a boundary line met while the current article's body is empty emits
nothing (the pending title is silently dropped); consequently, in a scan of
a line sequence with (strictly increasing) line numbers containing two
adjacent boundary lines, no Article is ever emitted with `line_start` equal
to the first boundary's line number. -/
theorem C3_empty_body_drop :
    (∀ (s : ArtState) (l : Nat × List Char), s.body = [] → isBoundary l.2 = true →
      (stepArt (some s) l).2 = []) ∧
    (∀ (pre post : List (Nat × List Char)) (n m : Nat) (a b : List Char),
      (∀ l ∈ pre, l.1 < n) → n < m → (∀ l ∈ post, n < l.1) →
      isBoundary a = true → isBoundary b = true →
      ∀ art ∈ scanArticles (pre ++ (n, a) :: (m, b) :: post), art.line_start ≠ n) := by
  have part1 : ∀ (s : ArtState) (l : Nat × List Char), s.body = [] →
      isBoundary l.2 = true → (stepArt (some s) l).2 = [] := by
    intro s l hb hB
    rcases hM : matchArticle l.2 with _ | num
    · rw [isBoundary, hM] at hB; cases hB
    · simp [stepArt, hM, hb]
  refine ⟨part1, ?_⟩
  intro pre post n m a b hpre hnm hpost ha hb art hart
  rcases hMa : matchArticle a with _ | numa
  · rw [isBoundary, hMa] at ha; cases ha
  rcases hMb : matchArticle b with _ | numb
  · rw [isBoundary, hMb] at hb; cases hb
  rw [scanArticles, scanGo_append] at hart
  rcases List.mem_append.mp hart with h1 | h1
  · rcases outPre_starts _ _ _ h1 with ⟨s, hs, -⟩ | ⟨l, hl, hstart⟩
    · cases hs
    · have := hpre l hl
      rw [hstart]
      omega
  · simp only [scanGo] at h1
    rcases List.mem_append.mp h1 with h2 | h2
    · rcases hs0 : stAfter none pre with _ | s0
      · rw [hs0] at h2; simp [stepArt, hMa] at h2
      · rw [hs0] at h2
        simp only [stepArt, hMa] at h2
        by_cases hb0 : s0.body = []
        · simp [hb0] at h2
        · simp [hb0] at h2
          rcases stAfter_start _ _ _ hs0 with ⟨s, hs, -⟩ | ⟨l, hl, he⟩
          · cases hs
          · have := hpre l hl
            rw [h2]
            show s0.start ≠ n
            omega
    · have hstep1 : (stepArt (stAfter none pre) (n, a)).1 = some ⟨numa, a, n, [], n⟩ := by
        rcases stAfter none pre with _ | s0 <;> simp [stepArt, hMa]
      rw [hstep1] at h2
      have hstep2o : (stepArt (some ⟨numa, a, n, [], n⟩) (m, b)).2 = [] :=
        part1 _ _ rfl (by rw [isBoundary, hMb]; rfl)
      have hstep2s : (stepArt (some ⟨numa, a, n, [], n⟩) (m, b)).1 =
          some ⟨numb, b, m, [], m⟩ := by
        simp [stepArt, hMb]
      rw [hstep2o, hstep2s] at h2
      simp only [List.nil_append] at h2
      have hlow := scanGo_lower post _ n hpost ?_ art h2
      · omega
      · intro s1 hs1
        cases hs1
        exact hnm

/-- Witness for C3: two adjacent boundary lines `第一條`, `第二條`; the step
on the second emits nothing, and no article starting at line 1 exists in the
scan's output. -/
theorem C3_witness :
    (stepArt (some ⟨"一".data, "第一條".data, 1, [], 1⟩) (2, "第二條".data)).2 = [] ∧
    Article.mk "一".data "第一條".data 1 1 [] ∉
      scanArticles [(1, "第一條".data), (2, "第二條".data)] :=
  ⟨C3_empty_body_drop.1 _ _ rfl (by decide),
   fun hmem => C3_empty_body_drop.2 [] [] 1 2 _ _ (by simp) (by omega) (by simp)
     (by decide) (by decide) _ hmem rfl⟩

theorem followedOk_tail {x : Nat × List Char} {xs : List (Nat × List Char)}
    (h : followedOk (x :: xs) = true) : followedOk xs = true := by
  match xs with
  | [] => rfl
  | y :: ys =>
    simp only [followedOk, Bool.and_eq_true] at h
    exact h.2

theorem followedOk_head {x : Nat × List Char} {xs : List (Nat × List Char)}
    (h : followedOk (x :: xs) = true) (hx : isBoundary x.2 = true) :
    ∃ y ys, xs = y :: ys ∧ isBoundary y.2 = false := by
  match xs with
  | [] => simp [followedOk, hx] at h
  | y :: ys =>
    simp only [followedOk, Bool.and_eq_true, Bool.or_eq_true, Bool.not_eq_true'] at h
    rcases h.1 with h1 | h1
    · rw [hx] at h1; cases h1
    · exact ⟨y, ys, rfl, h1⟩

theorem scanGo_count : ∀ (xs : List (Nat × List Char)) (st : Option ArtState),
    followedOk xs = true → StOk st xs →
    (∀ s, st = some s → ∀ l ∈ xs, s.last < l.1) →
    List.Pairwise (fun p q => p.1 < q.1) xs →
    (scanGo st xs).length = xs.countP (fun l => isBoundary l.2) + stCnt st ∧
    ∀ art ∈ scanGo st xs, art.line_start < art.line_end := by
  intro xs
  induction xs with
  | nil =>
    intro st _ hok _ _
    rcases st with _ | s
    · simp [scanGo, finalFlush, stCnt]
    · obtain ⟨h1, h2⟩ := hok
      have hbody : s.body ≠ [] := by
        intro hb
        obtain ⟨-, y, ys, hys, -⟩ := h1 hb
        cases hys
      refine ⟨?_, ?_⟩
      · simp [scanGo, finalFlush, hbody, stCnt]
      · intro art hart
        simp only [scanGo, finalFlush, if_pos hbody] at hart
        rcases List.mem_cons.mp hart with h | h
        · rw [h]; exact h2 hbody
        · simp at h
  | cons x rest ih =>
    intro st hfol hok hbound hpair
    have hfr : followedOk rest = true := followedOk_tail hfol
    obtain ⟨hx_rest, hpair_rest⟩ := List.pairwise_cons.mp hpair
    rcases hM : matchArticle x.2 with _ | num
    · have hnb : isBoundary x.2 = false := by rw [isBoundary, hM]; rfl
      rcases st with _ | s
      · have hrec := ih none hfr trivial (by intro s hs; cases hs) hpair_rest
        refine ⟨?_, ?_⟩
        · simp only [scanGo, stepArt, hM]
          simp [List.countP_cons, hnb, hrec.1]
        · intro art hart
          simp only [scanGo, stepArt, hM, List.nil_append] at hart
          exact hrec.2 art hart
      · have hst1 : (stepArt (some s) x).1 =
            some { s with body := s.body ++ [x.2], last := x.1 } := by
          simp [stepArt, hM]
        have hout : (stepArt (some s) x).2 = [] := by simp [stepArt, hM]
        have hlastx : s.last < x.1 := hbound s rfl x (List.mem_cons_self _ _)
        have hstartx : s.start < x.1 := by
          obtain ⟨h1, h2⟩ := hok
          by_cases hb : s.body = []
          · obtain ⟨heq, -⟩ := h1 hb
            omega
          · have := h2 hb
            omega
        have hok' : StOk (some { s with body := s.body ++ [x.2], last := x.1 }) rest := by
          constructor
          · intro hb'
            exact absurd hb' (by simp)
          · intro _
            simpa using hstartx
        have hbound' : ∀ t, (some { s with body := s.body ++ [x.2], last := x.1 }
              : Option ArtState) = some t → ∀ l ∈ rest, t.last < l.1 := by
          intro t ht l hl
          cases ht
          simpa using hx_rest l hl
        have hrec := ih _ hfr hok' hbound' hpair_rest
        refine ⟨?_, ?_⟩
        · simp only [scanGo, hst1, hout, List.nil_append]
          simp [List.countP_cons, hnb, hrec.1, stCnt]
        · intro art hart
          simp only [scanGo, hst1, hout, List.nil_append] at hart
          exact hrec.2 art hart
    · have hbx : isBoundary x.2 = true := by rw [isBoundary, hM]; rfl
      obtain ⟨y, rest', hrest, hy⟩ := followedOk_head hfol hbx
      have hst1 : (stepArt st x).1 = some ⟨num, x.2, x.1, [], x.1⟩ := by
        rcases st with _ | s <;> simp [stepArt, hM]
      have hok' : StOk (some ⟨num, x.2, x.1, [], x.1⟩) rest := by
        constructor
        · intro _
          exact ⟨rfl, y, rest', hrest, hy⟩
        · intro hb
          exact absurd rfl hb
      have hbound' : ∀ t, (some (⟨num, x.2, x.1, [], x.1⟩ : ArtState)) = some t →
          ∀ l ∈ rest, t.last < l.1 := by
        intro t ht l hl
        cases ht
        simpa using hx_rest l hl
      have hrec := ih _ hfr hok' hbound' hpair_rest
      rcases st with _ | s
      · have hout : (stepArt none x).2 = [] := by simp [stepArt, hM]
        refine ⟨?_, ?_⟩
        · simp only [scanGo, hst1, hout, List.nil_append]
          simp only [List.countP_cons, hbx, hrec.1, stCnt]
          simp
        · intro art hart
          simp only [scanGo, hst1, hout, List.nil_append] at hart
          exact hrec.2 art hart
      · obtain ⟨h1, h2⟩ := hok
        have hbody : s.body ≠ [] := by
          intro hb
          obtain ⟨-, y2, ys2, hys2, hy2⟩ := h1 hb
          obtain ⟨hxy, -⟩ := List.cons_eq_cons.mp hys2
          rw [← hxy] at hy2
          rw [hbx] at hy2
          cases hy2
        have hout : (stepArt (some s) x).2 = [emitArticle s] := by
          simp [stepArt, hM, hbody]
        refine ⟨?_, ?_⟩
        · simp only [scanGo, hst1, hout, List.singleton_append, List.length_cons]
          simp only [List.countP_cons, hbx, hrec.1, stCnt]
          simp
        · intro art hart
          simp only [scanGo, hst1, hout, List.singleton_append] at hart
          rcases List.mem_cons.mp hart with h | h
          · rw [h]
            exact h2 hbody
          · exact hrec.2 art h

/-- C4: over a line sequence with strictly increasing line numbers in which
every valid `第X條` boundary line is immediately followed by a non-boundary
line, the scan emits exactly as many Articles as there are boundary lines
(`K`), and every emitted Article has `line_start < line_end` (which entails
the claim's disjunction). -/
theorem C4_article_count (lines : List (Nat × List Char))
    (hmono : List.Pairwise (fun p q => p.1 < q.1) lines)
    (hfol : followedOk lines = true) :
    (scanArticles lines).length = lines.countP (fun l => isBoundary l.2) ∧
    ∀ art ∈ scanArticles lines, art.line_start < art.line_end := by
  have h := scanGo_count lines none hfol trivial (by intro s hs; cases hs) hmono
  simpa [scanArticles, stCnt] using h

/-- Witness for C4: two boundary lines each followed by one body line give
exactly 2 articles. -/
theorem C4_witness :
    (scanArticles [(1, "第一條".data), (2, "內文甲".data),
                   (3, "第二條".data), (4, "內文乙".data)]).length =
      [(1, "第一條".data), (2, "內文甲".data),
       (3, "第二條".data), (4, "內文乙".data)].countP (fun l => isBoundary l.2) :=
  (C4_article_count _ (by simp [List.pairwise_cons]) (by decide)).1

/-- C9: the normalizer is a total function of the embedding; the empty
(falsy) input yields the empty string, and an unmatched `<` with no closing
`>` anywhere is not treated as a tag — it survives into the output text. -/
theorem C9_total_graceful :
    html_to_text [] = [] ∧
    ∀ s : List Char, '>' ∉ s → '<' ∈ s → '<' ∈ html_to_text s := by
  refine ⟨by decide, ?_⟩
  intro s hgt hlt
  have hne : s ≠ [] := by rintro rfl; simp at hlt
  rw [html_to_text, if_neg hne]
  have h1 : brSub s = s := (brGo_no_gt hgt).1
  have h2 : stripTags s = s := (stGo_no_gt hgt).1
  rw [h1, h2]
  have hm1 : '<' ∈ entities s := by
    unfold entities
    apply mem_replaceAllF (by decide)
    apply mem_replaceAllF (by decide)
    apply mem_replaceAllF (by decide)
    apply mem_replaceAllF (by decide)
    exact hlt
  have hm2 : '<' ∈ collapseSpaces (entities s) := mem_cSpGo (by decide) _ false hm1
  have hm3 : '<' ∈ collapseNL (collapseSpaces (entities s)) :=
    mem_cNLGo (by decide) _ [] hm2
  exact mem_pyStrip (by decide) hm3

/-- Witness for C9: the input `a<b` has an unmatched `<` and it reaches the
output. -/
theorem C9_witness : '<' ∈ html_to_text "a<b".data :=
  C9_total_graceful.2 "a<b".data (by decide) (by decide)

theorem noPair_cons {bad : Char → Char → Bool} {a : Char} {l : List Char} :
    noPair bad (a :: l) = true ↔
      ((∀ b, l.head? = some b → bad a b = false) ∧ noPair bad l = true) := by
  match l with
  | [] => simp [noPair]
  | b :: rest =>
    simp only [noPair, Bool.and_eq_true, Bool.not_eq_true']
    constructor
    · rintro ⟨h1, h2⟩
      refine ⟨fun b' hb' => ?_, h2⟩
      rw [List.head?_cons] at hb'
      injection hb' with hb'
      rw [← hb']
      exact h1
    · rintro ⟨h1, h2⟩
      exact ⟨h1 b rfl, h2⟩

theorem noPair_tail {bad : Char → Char → Bool} {a : Char} {l : List Char}
    (h : noPair bad (a :: l) = true) : noPair bad l = true :=
  (noPair_cons.mp h).2

theorem noPair_append {bad : Char → Char → Bool} : ∀ {x y : List Char},
    noPair bad x = true → noPair bad y = true →
    (∀ a b, x.getLast? = some a → y.head? = some b → bad a b = false) →
    noPair bad (x ++ y) = true := by
  intro x
  induction x with
  | nil => intro y _ hy _; simpa using hy
  | cons a x ih =>
    intro y hx hy hxy
    rcases x with _ | ⟨b, x'⟩
    · rw [List.singleton_append]
      refine noPair_cons.mpr ⟨?_, hy⟩
      intro b' hb'
      exact hxy a b' (by simp) hb'
    · rw [List.cons_append]
      refine noPair_cons.mpr ⟨?_, ?_⟩
      · intro b' hb'
        rw [List.cons_append, List.head?_cons] at hb'
        injection hb' with hb'
        rw [← hb']
        exact (noPair_cons.mp hx).1 b rfl
      · exact ih (noPair_tail hx) hy (fun a' b' ha' hb' =>
          hxy a' b' (by rw [List.getLast?_cons_cons]; exact ha') hb')

theorem noPair_append_right {bad : Char → Char → Bool} : ∀ {x y : List Char},
    noPair bad (x ++ y) = true → noPair bad y = true := by
  intro x
  induction x with
  | nil => intro y h; simpa using h
  | cons a x ih =>
    intro y h
    rw [List.cons_append] at h
    exact ih (noPair_tail h)

theorem noPair_append_left {bad : Char → Char → Bool} : ∀ {x y : List Char},
    noPair bad (x ++ y) = true → noPair bad x = true := by
  intro x
  induction x with
  | nil => intro y _; rfl
  | cons a x ih =>
    intro y h
    rw [List.cons_append] at h
    have h2 := noPair_cons.mp h
    refine noPair_cons.mpr ⟨?_, ih h2.2⟩
    intro b hb
    apply h2.1
    rcases x with _ | ⟨c, x'⟩
    · exact absurd hb (by simp)
    · rw [List.head?_cons] at hb
      injection hb with hb
      rw [List.cons_append, List.head?_cons, hb]

theorem noPair_imp {bad1 bad2 : Char → Char → Bool} :
    ∀ l : List Char, noPair bad1 l = true →
    (∀ a b, a ∈ l → b ∈ l → bad1 a b = false → bad2 a b = false) →
    noPair bad2 l = true := by
  intro l
  induction l with
  | nil => intro _ _; rfl
  | cons a l ih =>
    intro h1 himp
    rcases l with _ | ⟨b, l'⟩
    · rfl
    · simp only [noPair, Bool.and_eq_true, Bool.not_eq_true'] at h1 ⊢
      refine ⟨himp a b (by simp) (by simp) h1.1, ?_⟩
      have := ih h1.2 (fun a' b' ha' hb' =>
        himp a' b' (List.mem_cons_of_mem _ ha') (List.mem_cons_of_mem _ hb'))
      simpa [noPair, Bool.and_eq_true, Bool.not_eq_true'] using this

theorem noPair_last_head {bad : Char → Char → Bool} : ∀ (x : List Char) (b : Char)
    (y : List Char), noPair bad (x ++ b :: y) = true →
    ∀ a, x.getLast? = some a → bad a b = false := by
  intro x
  induction x with
  | nil => intro b y _ a ha; exact absurd ha (by simp)
  | cons c x ih =>
    intro b y h a ha
    rcases x with _ | ⟨d, x'⟩
    · simp only [List.getLast?_singleton] at ha
      injection ha with ha
      rw [← ha]
      exact (noPair_cons.mp h).1 b rfl
    · rw [List.getLast?_cons_cons] at ha
      rw [List.cons_append] at h
      exact ih b y (noPair_tail h) a ha

theorem dropWhile_append_stop {p : Char → Bool} : ∀ {x : List Char} (y : List Char),
    (∃ d ∈ x, p d = false) → (x ++ y).dropWhile p = x.dropWhile p ++ y := by
  intro x
  induction x with
  | nil => intro y h; rcases h with ⟨d, hd, -⟩; simp at hd
  | cons c x ih =>
    intro y h
    by_cases hc : p c
    · rw [List.cons_append, List.dropWhile_cons, if_pos hc, List.dropWhile_cons, if_pos hc]
      apply ih
      rcases h with ⟨d, hd, hpd⟩
      rcases List.mem_cons.mp hd with rfl | hd'
      · rw [hc] at hpd; cases hpd
      · exact ⟨d, hd', hpd⟩
    · rw [List.cons_append, List.dropWhile_cons, if_neg hc, List.dropWhile_cons, if_neg hc,
        List.cons_append]

theorem takeWhile_append_stop {p : Char → Bool} : ∀ {x : List Char} (y : List Char),
    (∃ d ∈ x, p d = false) → (x ++ y).takeWhile p = x.takeWhile p := by
  intro x
  induction x with
  | nil => intro y h; rcases h with ⟨d, hd, -⟩; simp at hd
  | cons c x ih =>
    intro y h
    by_cases hc : p c
    · rw [List.cons_append, List.takeWhile_cons, if_pos hc, List.takeWhile_cons, if_pos hc]
      congr 1
      apply ih
      rcases h with ⟨d, hd, hpd⟩
      rcases List.mem_cons.mp hd with rfl | hd'
      · rw [hc] at hpd; cases hpd
      · exact ⟨d, hd', hpd⟩
    · rw [List.cons_append, List.takeWhile_cons, if_neg hc, List.takeWhile_cons, if_neg hc]

theorem dropWhile_append_nonp {p : Char → Bool} {c : Char} (hc : p c = false) :
    ∀ (x y : List Char), (x ++ c :: y).dropWhile p = x.dropWhile p ++ c :: y := by
  intro x
  induction x with
  | nil =>
    intro y
    simp only [List.nil_append, List.dropWhile_cons, List.dropWhile_nil, hc]
    simp
  | cons d x ih =>
    intro y
    by_cases hd : p d
    · rw [List.cons_append, List.dropWhile_cons, if_pos hd, List.dropWhile_cons, if_pos hd, ih]
    · rw [List.cons_append, List.dropWhile_cons, if_neg hd, List.dropWhile_cons, if_neg hd,
        List.cons_append]

theorem dropWhile_head_neg {p : Char → Bool} : ∀ (l : List Char) {c : Char} {r : List Char},
    l.dropWhile p = c :: r → p c = false := by
  intro l
  induction l with
  | nil => intro c r h; simp at h
  | cons d l ih =>
    intro c r h
    by_cases hd : p d
    · rw [List.dropWhile_cons, if_pos hd] at h
      exact ih h
    · rw [List.dropWhile_cons, if_neg hd] at h
      injection h with h1 h2
      rw [← h1]
      simpa using hd

theorem pyRTrim_subset {c : Char} {s : List Char} (h : c ∈ pyRTrim s) : c ∈ s := by
  unfold pyRTrim at h
  have h1 := List.mem_reverse.mp h
  have h2 := (List.dropWhile_sublist _).subset h1
  exact List.mem_reverse.mp h2

theorem mem_pyRTrim {c : Char} (hc : isPySpace c = false) {s : List Char} (h : c ∈ s) :
    c ∈ pyRTrim s := by
  unfold pyRTrim
  exact List.mem_reverse.mpr (mem_dropWhile_of_neg hc _ (List.mem_reverse.mpr h))

theorem pyRTrim_all_ws {s : List Char} (h : ∀ c ∈ s, isPySpace c = true) :
    pyRTrim s = [] := by
  unfold pyRTrim
  have he : s.reverse.dropWhile isPySpace = [] := by
    rw [List.dropWhile_eq_nil_iff]
    intro c hc
    exact h c (List.mem_reverse.mp hc)
  rw [he, List.reverse_nil]

theorem pyRTrim_append_right {x y : List Char} (hy : ∃ d ∈ y, isPySpace d = false) :
    pyRTrim (x ++ y) = x ++ pyRTrim y := by
  unfold pyRTrim
  rw [List.reverse_append]
  rw [dropWhile_append_stop x.reverse ?_]
  · rw [List.reverse_append, List.reverse_reverse]
  · rcases hy with ⟨d, hd, hpd⟩
    exact ⟨d, List.mem_reverse.mpr hd, hpd⟩

theorem pyRTrim_cons_nonws {c : Char} (hc : isPySpace c = false) (a : List Char) :
    pyRTrim (c :: a) = c :: pyRTrim a := by
  unfold pyRTrim
  rw [List.reverse_cons]
  rw [show a.reverse ++ [c] = a.reverse ++ c :: [] from rfl]
  rw [dropWhile_append_nonp hc]
  rw [List.reverse_append]
  simp

theorem dropWhile_idem {p : Char → Bool} : ∀ l : List Char,
    (l.dropWhile p).dropWhile p = l.dropWhile p := by
  intro l
  induction l with
  | nil => rfl
  | cons c cs ih =>
    by_cases h : p c
    · simp only [List.dropWhile_cons, if_pos h]
      exact ih
    · simp only [List.dropWhile_cons, if_neg h]

theorem pyRTrim_idem (s : List Char) : pyRTrim (pyRTrim s) = pyRTrim s := by
  unfold pyRTrim
  rw [List.reverse_reverse, dropWhile_idem]

theorem pyRTrim_append_ws (s : List Char) :
    s = pyRTrim s ++ (s.reverse.takeWhile isPySpace).reverse := by
  unfold pyRTrim
  conv_lhs => rw [← List.reverse_reverse s,
    ← List.takeWhile_append_dropWhile isPySpace s.reverse]
  rw [List.reverse_append]

theorem pyLTrim_pyRTrim_pyLTrim (s : List Char) :
    pyLTrim (pyRTrim (pyLTrim s)) = pyRTrim (pyLTrim s) := by
  rcases hx : pyLTrim s with _ | ⟨c, x'⟩
  · rfl
  · have hc : isPySpace c = false := dropWhile_head_neg s hx
    rw [pyRTrim_cons_nonws hc]
    show List.dropWhile isPySpace (c :: pyRTrim x') = _
    rw [List.dropWhile_cons, if_neg (by simp [hc])]

theorem pyStrip_idem (s : List Char) : pyStrip (pyStrip s) = pyStrip s := by
  show pyRTrim (pyLTrim (pyRTrim (pyLTrim s))) = pyRTrim (pyLTrim s)
  rw [pyLTrim_pyRTrim_pyLTrim, pyRTrim_idem]

theorem pyStrip_subset {c : Char} {s : List Char} (h : c ∈ pyStrip s) : c ∈ s := by
  unfold pyStrip at h
  have h1 := pyRTrim_subset h
  exact (List.dropWhile_sublist _).subset h1

theorem noPair_dropWhile_left {bad : Char → Char → Bool} {p : Char → Bool} :
    ∀ l : List Char, noPair bad l = true → noPair bad (l.dropWhile p) = true := by
  intro l
  induction l with
  | nil => intro h; exact h
  | cons c cs ih =>
    intro h
    by_cases hc : p c
    · rw [List.dropWhile_cons, if_pos hc]
      exact ih (noPair_tail h)
    · rw [List.dropWhile_cons, if_neg hc]
      exact h

theorem noPair_pyRTrim {bad : Char → Char → Bool} {s : List Char}
    (h : noPair bad s = true) : noPair bad (pyRTrim s) = true := by
  have hdecomp := pyRTrim_append_ws s
  rw [hdecomp] at h
  exact noPair_append_left h

theorem noPair_pyStrip {bad : Char → Char → Bool} {s : List Char}
    (h : noPair bad s = true) : noPair bad (pyStrip s) = true :=
  noPair_pyRTrim (noPair_dropWhile_left s h)

theorem contains_nl_iff (buf : List Char) : buf.contains '\n' = true ↔ '\n' ∈ buf := by
  induction buf with
  | nil => simp
  | cons c cs ih =>
    rw [List.contains_cons]
    simp only [Bool.or_eq_true, beq_iff_eq]
    rw [ih]
    constructor
    · rintro (h | h)
      · rw [h]; exact List.mem_cons_self _ _
      · exact List.mem_cons_of_mem _ h
    · intro h
      rcases List.mem_cons.mp h with h | h
      · exact Or.inl h
      · exact Or.inr h

theorem badPair_left_nonws {a : Char} (b : Char) (ha : isPySpace a = false) :
    badPair a b = false := by
  have h1 : a ≠ '\n' := fun h => by rw [h] at ha; exact absurd ha (by decide)
  have h2 : a ≠ ' ' := fun h => by rw [h] at ha; exact absurd ha (by decide)
  simp [badPair, ha, h1, h2]

theorem badPair_right_nonws (a : Char) {b : Char} (hb : isPySpace b = false) :
    badPair a b = false := by
  have h1 : b ≠ '\n' := fun h => by rw [h] at hb; exact absurd hb (by decide)
  have h2 : b ≠ ' ' := fun h => by rw [h] at hb; exact absurd hb (by decide)
  simp [badPair, hb, h1, h2]

theorem mem_flushNL {c : Char} {buf : List Char} (h : c ∈ flushNL buf) :
    c ∈ buf ∨ c = '\n' := by
  unfold flushNL at h
  split_ifs at h
  · simp at h; exact Or.inr h
  · exact Or.inl h

theorem flushNL_noPair {buf : List Char} (hws : ∀ c ∈ buf, isPySpace c = true)
    (hnp : noPair dblSp buf = true) : noPair badPair (flushNL buf) = true := by
  unfold flushNL
  split_ifs with hc
  · rfl
  · have hnl : '\n' ∉ buf := fun hm => hc ((contains_nl_iff buf).mpr hm)
    refine noPair_imp buf hnp ?_
    intro a b ha hb hd
    have hb' : b ≠ '\n' := fun h => hnl (h ▸ hb)
    have ha' : a ≠ '\n' := fun h => hnl (h ▸ ha)
    simp only [dblSp] at hd
    simp [badPair, ha', hb', hd]

theorem cSpGo_head_true : ∀ (cs : List Char) (d : Char),
    (cSpGo true cs).head? = some d → isHoriz d = false := by
  intro cs
  induction cs with
  | nil => intro d h; simp [cSpGo] at h
  | cons c cs ih =>
    intro d h
    simp only [cSpGo] at h
    by_cases hc : isHoriz c = true
    · rw [if_pos hc] at h
      simp at h
      exact ih d h
    · rw [if_neg hc] at h
      rw [List.head?_cons] at h
      injection h with h
      rw [← h]
      simpa using hc

theorem cSpGo_good : ∀ (s : List Char) (b : Bool),
    '\t' ∉ cSpGo b s ∧ noPair dblSp (cSpGo b s) = true := by
  intro s
  induction s with
  | nil => intro b; constructor <;> simp [cSpGo, noPair]
  | cons c cs ih =>
    intro b
    simp only [cSpGo]
    by_cases hc : isHoriz c = true
    · rw [if_pos hc]
      rcases b with _ | _
      · simp only [if_neg (Bool.false_ne_true), List.singleton_append]
        constructor
        · intro hm
          rcases List.mem_cons.mp hm with h | h
          · exact absurd h (by decide)
          · exact (ih true).1 h
        · refine noPair_cons.mpr ⟨?_, (ih true).2⟩
          intro d hd
          have hdh := cSpGo_head_true cs d hd
          have : d ≠ ' ' := fun e => by rw [e] at hdh; exact absurd hdh (by decide)
          simp [dblSp, this]
      · simp only [if_pos rfl, List.nil_append]
        exact ih true
    · rw [if_neg hc]
      constructor
      · intro hm
        rcases List.mem_cons.mp hm with h | h
        · exact hc (h ▸ (by decide : isHoriz '\t' = true))
        · exact (ih false).1 h
      · refine noPair_cons.mpr ⟨?_, (ih false).2⟩
        intro d _
        have : c ≠ ' ' := fun e => by rw [e] at hc; exact hc (by decide)
        simp [dblSp, this]

theorem cSpGo_id : ∀ s : List Char, '\t' ∉ s → noPair dblSp s = true →
    ∀ b : Bool, (b = true → s.head? ≠ some ' ') → cSpGo b s = s := by
  intro s
  induction s with
  | nil => intro _ _ b _; rfl
  | cons c cs ih =>
    intro htab hnp b hb
    by_cases hc : isHoriz c = true
    · have hcsp : c = ' ' := by
        rcases (by simpa [isHoriz] using hc : c = ' ' ∨ c = '\t') with h | h
        · exact h
        · exact absurd (h ▸ List.mem_cons_self c cs) htab
      rcases b with _ | _
      · simp only [cSpGo, if_pos hc, if_neg (Bool.false_ne_true), List.singleton_append]
        rw [hcsp]
        congr 1
        apply ih (fun m => htab (List.mem_cons_of_mem _ m)) (noPair_tail hnp) true
        intro _ hh
        rcases cs with _ | ⟨d, cs'⟩
        · exact absurd hh (by simp)
        · rw [List.head?_cons] at hh
          injection hh with hh
          have hbad := (noPair_cons.mp hnp).1 d rfl
          rw [hcsp, hh] at hbad
          simp [dblSp] at hbad
      · exact absurd (by rw [List.head?_cons, hcsp]) (hb rfl)
    · simp only [cSpGo, if_neg hc]
      congr 1
      apply ih (fun m => htab (List.mem_cons_of_mem _ m)) (noPair_tail hnp) false
      intro h
      cases h

theorem cSpGo_append_nl : ∀ (a : List Char) (b : Bool) (rest : List Char),
    cSpGo b (a ++ '\n' :: rest) = cSpGo b a ++ '\n' :: cSpGo false rest := by
  intro a
  induction a with
  | nil =>
    intro b rest
    simp [cSpGo, isHoriz]
  | cons c a ih =>
    intro b rest
    by_cases hc : isHoriz c = true
    · simp only [List.cons_append, cSpGo, if_pos hc, List.append_eq, ih, List.append_assoc]
    · simp only [List.cons_append, cSpGo, if_neg hc, List.append_eq, ih]

theorem cSp_joinNl : ∀ ts : List (List Char),
    cSpGo false (joinNl ts) = joinNl (ts.map (cSpGo false)) := by
  intro ts
  match ts with
  | [] => rfl
  | [t] => rfl
  | t :: t' :: ts' =>
    show cSpGo false (t ++ '\n' :: joinNl (t' :: ts')) = _
    rw [cSpGo_append_nl]
    have ih := cSp_joinNl (t' :: ts')
    rw [ih]
    rfl

theorem not_mem_cSpGo {c : Char} (hc : c ≠ ' ') : ∀ (s : List Char) (b : Bool),
    c ∉ s → c ∉ cSpGo b s := by
  intro s
  induction s with
  | nil => intro b _ h; simp [cSpGo] at h
  | cons d cs ih =>
    intro b hns hmem
    have hnd : c ≠ d := fun e => hns (e ▸ List.mem_cons_self _ _)
    have hncs : c ∉ cs := fun m => hns (List.mem_cons_of_mem _ m)
    by_cases hd : isHoriz d = true
    · simp only [cSpGo, if_pos hd] at hmem
      rcases List.mem_append.mp hmem with h | h
      · rcases b with _ | _
        · simp at h; exact hc h
        · simp at h
      · exact ih true hncs h
    · simp only [cSpGo, if_neg hd] at hmem
      rcases List.mem_cons.mp hmem with h | h
      · exact hnd h
      · exact ih false hncs h

theorem not_mem_cNLGo {c : Char} (hc : c ≠ '\n') : ∀ (s buf : List Char),
    c ∉ s → c ∉ buf → c ∉ cNLGo buf s := by
  intro s
  induction s with
  | nil =>
    intro buf _ hbuf hmem
    simp only [cNLGo] at hmem
    rcases mem_flushNL hmem with h | h
    · exact hbuf h
    · exact hc h
  | cons d cs ih =>
    intro buf hns hbuf hmem
    have hnd : c ≠ d := fun e => hns (e ▸ List.mem_cons_self _ _)
    have hncs : c ∉ cs := fun m => hns (List.mem_cons_of_mem _ m)
    by_cases hd : isPySpace d = true
    · simp only [cNLGo, if_pos hd] at hmem
      refine ih (buf ++ [d]) hncs ?_ hmem
      intro m
      rcases List.mem_append.mp m with h | h
      · exact hbuf h
      · simp at h; exact hnd h
    · simp only [cNLGo, if_neg hd] at hmem
      rcases List.mem_append.mp hmem with h | h
      · rcases mem_flushNL h with h' | h'
        · exact hbuf h'
        · exact hc h'
      · rcases List.mem_cons.mp h with h' | h'
        · exact hnd h'
        · exact ih [] hncs (by simp) h'

theorem cNLGo_good : ∀ (s buf : List Char),
    (∀ c ∈ buf, isPySpace c = true) → '\t' ∉ buf → '\t' ∉ s →
    noPair dblSp (buf ++ s) = true →
    '\t' ∉ cNLGo buf s ∧ noPair badPair (cNLGo buf s) = true := by
  intro s
  induction s with
  | nil =>
    intro buf hws htab _ hnp
    simp only [cNLGo]
    constructor
    · intro hm
      rcases mem_flushNL hm with h | h
      · exact htab h
      · exact absurd h (by decide)
    · apply flushNL_noPair hws
      simpa using hnp
  | cons c cs ih =>
    intro buf hws htab hstab hnp
    have hctab : c ≠ '\t' := fun e => hstab (e ▸ List.mem_cons_self _ _)
    have hcstab : '\t' ∉ cs := fun m => hstab (List.mem_cons_of_mem _ m)
    by_cases hc : isPySpace c = true
    · simp only [cNLGo, if_pos hc]
      apply ih (buf ++ [c]) ?_ ?_ hcstab ?_
      · intro d hd
        rcases List.mem_append.mp hd with h | h
        · exact hws d h
        · simp at h; rw [h]; exact hc
      · intro hm
        rcases List.mem_append.mp hm with h | h
        · exact htab h
        · simp at h; exact hctab h.symm
      · rw [List.append_assoc, List.singleton_append]
        exact hnp
    · simp only [cNLGo, if_neg hc]
      obtain ⟨ihtab, ihnp⟩ := ih [] (by simp) (by simp) hcstab
        (noPair_tail (noPair_append_right hnp))
      constructor
      · intro hm
        rcases List.mem_append.mp hm with h | h
        · rcases mem_flushNL h with h' | h'
          · exact htab h'
          · exact absurd h' (by decide)
        · rcases List.mem_cons.mp h with h' | h'
          · exact hctab h'.symm
          · exact ihtab h'
      · apply noPair_append
        · exact flushNL_noPair hws (noPair_append_left hnp)
        · refine noPair_cons.mpr ⟨?_, ihnp⟩
          intro b _
          exact badPair_left_nonws b (by simpa using hc)
        · intro a b ha hb
          rw [List.head?_cons] at hb
          injection hb with hb
          rw [← hb]
          exact badPair_right_nonws a (by simpa using hc)

theorem cNLGo_id : ∀ (s buf : List Char), (∀ c ∈ buf, isPySpace c = true) →
    flushNL buf = buf → noPair badPair (buf ++ s) = true → cNLGo buf s = buf ++ s := by
  intro s
  induction s with
  | nil =>
    intro buf _ hfl _
    simp only [cNLGo]
    rw [hfl, List.append_nil]
  | cons c cs ih =>
    intro buf hws hfl hnp
    by_cases hc : isPySpace c = true
    · simp only [cNLGo, if_pos hc]
      have hfl' : flushNL (buf ++ [c]) = buf ++ [c] := by
        by_cases hcn : c = '\n'
        · subst hcn
          rcases hbuf : buf with _ | ⟨d, buf'⟩
          · simp [flushNL]
          · exfalso
            rcases hget : buf.getLast? with _ | a
            · rw [hbuf] at hget; simp at hget
            · have hbad := noPair_last_head buf '\n' cs hnp a hget
              have haws : isPySpace a = true :=
                hws a (List.mem_of_getLast?_eq_some hget)
              rw [show badPair a '\n' = true from by simp [badPair, haws]] at hbad
              cases hbad
        · unfold flushNL
          split_ifs with hcon
          · exfalso
            have hnb : '\n' ∈ buf := by
              rcases List.mem_append.mp ((contains_nl_iff _).mp hcon) with h | h
              · exact h
              · simp at h; exact absurd h.symm hcn
            have hbe : buf = ['\n'] := by
              have hflc := hfl
              unfold flushNL at hflc
              rw [if_pos ((contains_nl_iff _).mpr hnb)] at hflc
              exact hflc.symm
            rw [hbe, List.singleton_append] at hnp
            have hbad := (noPair_cons.mp hnp).1 c rfl
            rw [show badPair '\n' c = true from by simp [badPair, hc]] at hbad
            cases hbad
          · rfl
      rw [ih (buf ++ [c]) ?_ hfl' (by rwa [List.append_assoc, List.singleton_append])]
      · rw [List.append_assoc, List.singleton_append]
      · intro d hd
        rcases List.mem_append.mp hd with h | h
        · exact hws d h
        · simp at h; rw [h]; exact hc
    · simp only [cNLGo, if_neg hc]
      rw [hfl]
      rw [ih [] (by simp) (by simp [flushNL]) (noPair_tail (noPair_append_right hnp))]
      simp

theorem html_norm_good (s : List Char) :
    '\t' ∉ html_to_text s ∧ noPair badPair (html_to_text s) = true ∧
    pyStrip (html_to_text s) = html_to_text s := by
  by_cases hs : s = []
  · subst hs
    refine ⟨by simp [html_to_text], by simp [html_to_text, noPair],
      by simp [html_to_text, pyStrip, pyLTrim, pyRTrim]⟩
  · rw [html_to_text, if_neg hs]
    obtain ⟨hsp_tab, hsp_np⟩ := cSpGo_good (entities (stripTags (brSub s))) false
    obtain ⟨hnl_tab, hnl_np⟩ :=
      cNLGo_good (collapseSpaces (entities (stripTags (brSub s)))) []
        (by simp) (by simp) hsp_tab (by simpa using hsp_np)
    refine ⟨?_, ?_, ?_⟩
    · intro hmem
      exact hnl_tab (pyStrip_subset hmem)
    · exact noPair_pyStrip hnl_np
    · exact pyStrip_idem _

/-- C10: for every input, the normalizer's output is in whitespace normal
form: it contains no tab; no two adjacent characters form a bad pair (two
spaces, two newlines, or any whitespace adjacent to a newline — so in
particular no space next to a newline and no blank line); and it equals its
own trim. -/
theorem C10_whitespace_normal_form (s : List Char) :
    '\t' ∉ html_to_text s ∧ noPair badPair (html_to_text s) = true ∧
    pyStrip (html_to_text s) = html_to_text s :=
  html_norm_good s

theorem brGo_none_no_lt : ∀ s : List Char, '<' ∉ s → brGo none s = s := by
  intro s
  induction s with
  | nil => intro _; rfl
  | cons c cs ih =>
    intro h
    have hc : c ≠ '<' := fun e => h (e ▸ List.mem_cons_self _ _)
    simp only [brGo, if_neg hc]
    rw [ih (fun m => h (List.mem_cons_of_mem _ m))]

theorem stGo_none_no_lt : ∀ s : List Char, '<' ∉ s → stGo none s = s := by
  intro s
  induction s with
  | nil => intro _; rfl
  | cons c cs ih =>
    intro h
    have hc : c ≠ '<' := fun e => h (e ▸ List.mem_cons_self _ _)
    simp only [stGo, if_neg hc]
    rw [ih (fun m => h (List.mem_cons_of_mem _ m))]

theorem brSub_no_lt {s : List Char} (h : '<' ∉ s) : brSub s = s :=
  brGo_none_no_lt s h

theorem stripTags_no_lt {s : List Char} (h : '<' ∉ s) : stripTags s = s :=
  stGo_none_no_lt s h

theorem replaceAllF_head_id : ∀ (f : Nat) (s : List Char) (a : Char) (p rep : List Char),
    a ∉ s → replaceAllF f (a :: p) rep s = s := by
  intro f
  induction f with
  | zero => intro s a p rep _; rfl
  | succ f ih =>
    intro s a p rep h
    match s with
    | [] => rfl
    | c :: cs =>
      have hc : a ≠ c := fun e => h (e ▸ List.mem_cons_self _ _)
      have hpre : ¬((a :: p).isPrefixOf (c :: cs) ∧ (a :: p) ≠ []) := by
        rintro ⟨hp, -⟩
        simp only [List.isPrefixOf, Bool.and_eq_true, beq_iff_eq] at hp
        exact hc hp.1
      simp only [replaceAllF, if_neg hpre]
      rw [ih cs a p rep (fun m => h (List.mem_cons_of_mem _ m))]

theorem entities_id {s : List Char} (h : '&' ∉ s) : entities s = s := by
  have e1 : replaceAll "&nbsp;".data " ".data s = s :=
    replaceAllF_head_id s.length s '&' "nbsp;".data " ".data h
  have e2 : replaceAll "&amp;".data "&".data s = s :=
    replaceAllF_head_id s.length s '&' "amp;".data "&".data h
  have e3 : replaceAll "&lt;".data "<".data s = s :=
    replaceAllF_head_id s.length s '&' "lt;".data "<".data h
  have e4 : replaceAll "&gt;".data ">".data s = s :=
    replaceAllF_head_id s.length s '&' "gt;".data ">".data h
  unfold entities
  rw [e1, e2, e3, e4]

theorem noPair_badPair_dblSp {y : List Char} (h : noPair badPair y = true) :
    noPair dblSp y = true := by
  refine noPair_imp y h ?_
  intro a b _ _ hb
  simp only [badPair, Bool.or_eq_false_iff] at hb
  exact hb.2

/-- C8: the normalizer is idempotent on text without tags and without
entities (no `<` and no `&`). -/
theorem C8_idempotent (x : List Char) (h1 : '<' ∉ x) (h2 : '&' ∉ x) :
    html_to_text (html_to_text x) = html_to_text x := by
  by_cases hx : x = []
  · subst hx
    simp [html_to_text]
  · obtain ⟨hytab, hynp, hystrip⟩ := html_norm_good x
    have hxval : html_to_text x =
        pyStrip (collapseNL (collapseSpaces x)) := by
      rw [html_to_text, if_neg hx, brSub_no_lt h1, stripTags_no_lt h1, entities_id h2]
    have hsub : ∀ c : Char, c ≠ ' ' → c ≠ '\n' → c ∉ x → c ∉ html_to_text x := by
      intro c hc1 hc2 hcx hmem
      rw [hxval] at hmem
      have hm1 := pyStrip_subset hmem
      have hm0 : c ∉ cSpGo false x := not_mem_cSpGo hc1 x false hcx
      exact not_mem_cNLGo hc2 (collapseSpaces x) [] hm0 (by simp) hm1
    have hylt : '<' ∉ html_to_text x := hsub '<' (by decide) (by decide) h1
    have hyamp : '&' ∉ html_to_text x := hsub '&' (by decide) (by decide) h2
    by_cases hye : html_to_text x = []
    · rw [hye]
      simp [html_to_text]
    · rw [html_to_text, if_neg hye, brSub_no_lt hylt, stripTags_no_lt hylt,
        entities_id hyamp]
      have hsp : collapseSpaces (html_to_text x) = html_to_text x :=
        cSpGo_id (html_to_text x) hytab (noPair_badPair_dblSp hynp) false
          (by intro h; cases h)
      rw [hsp]
      have hnl : collapseNL (html_to_text x) = html_to_text x := by
        have h0 := cNLGo_id (html_to_text x) [] (by simp) (by simp [flushNL])
          (by simpa using hynp)
        simpa [collapseNL] using h0
      rw [hnl]
      exact hystrip

/-- Witness for C8: a plain text with doubled spaces and newlines
normalizes to a fixed point. -/
theorem C8_witness :
    html_to_text (html_to_text "a  b \n\n c".data) = html_to_text "a  b \n\n c".data :=
  C8_idempotent _ (by decide) (by decide)

theorem splitNl_ne_nil : ∀ s : List Char, splitNl s ≠ [] := by
  intro s
  match s with
  | [] => simp [splitNl]
  | c :: cs =>
    by_cases hc : c = '\n'
    · simp [splitNl, hc]
    · simp only [splitNl, if_neg hc]
      rcases h : splitNl cs with _ | ⟨l, ls⟩
      · simp
      · simp

theorem splitNl_length : ∀ s : List Char, (splitNl s).length = s.count '\n' + 1 := by
  intro s
  induction s with
  | nil => simp [splitNl]
  | cons c cs ih =>
    by_cases hc : c = '\n'
    · subst hc
      rw [show splitNl ('\n' :: cs) = [] :: splitNl cs from by simp [splitNl]]
      simp only [List.length_cons, List.count_cons]
      rw [ih]
      simp
    · simp only [splitNl, if_neg hc]
      rcases h : splitNl cs with _ | ⟨l, ls⟩
      · exact absurd h (splitNl_ne_nil cs)
      · show ((c :: l) :: ls).length = _
        have h2 := ih
        rw [h] at h2
        simp only [List.length_cons] at h2 ⊢
        rw [List.count_cons]
        simp only [beq_iff_eq, if_neg hc]
        omega

theorem brCntGo_none_plain : ∀ a : List Char, '<' ∉ a → ∀ b : List Char,
    brCntGo none (a ++ b) = brCntGo none b := by
  intro a
  induction a with
  | nil => intro _ b; rfl
  | cons c a ih =>
    intro h b
    have hc : c ≠ '<' := fun e => h (e ▸ List.mem_cons_self _ _)
    rw [List.cons_append]
    rcases hab : a ++ b with _ | ⟨d, rest⟩
    · rw [show brCntGo none [c] = 0 from by simp [brCntGo]]
      obtain ⟨-, hb⟩ := List.append_eq_nil.mp hab
      rw [hb]
      rfl
    · rw [← hab]
      simp only [brCntGo, if_neg hc]
      exact ih (fun m => h (List.mem_cons_of_mem _ m)) b

theorem brCntGo_none_zero : ∀ t : List Char, '<' ∉ t → brCntGo none t = 0 := by
  intro t
  induction t with
  | nil => intro _; rfl
  | cons c cs ih =>
    intro h
    have hc : c ≠ '<' := fun e => h (e ▸ List.mem_cons_self _ _)
    rcases hcs : cs with _ | ⟨d, rest⟩
    · simp [brCntGo]
    · rw [← hcs]
      simp only [brCntGo, if_neg hc]
      exact ih (fun m => h (List.mem_cons_of_mem _ m))

theorem brCntGo_br (z : List Char) :
    brCntGo none ('<' :: 'b' :: 'r' :: '>' :: z) = 1 + brCntGo none z := by
  simp [brCntGo]

theorem brCntGo_brSlash (z : List Char) :
    brCntGo none ('<' :: 'b' :: 'r' :: '/' :: '>' :: z) = 1 + brCntGo none z := by
  simp [brCntGo]

theorem brCount_joinBr : ∀ (ts : List (List Char)) (gs : List Bool),
    (∀ t ∈ ts, '<' ∉ t) → ts ≠ [] → brCount (joinBr ts gs) + 1 = ts.length := by
  intro ts
  match ts with
  | [] => intro gs _ h; exact absurd rfl h
  | [t] =>
    intro gs h _
    show brCntGo none t + 1 = 1
    rw [brCntGo_none_zero t (h t (by simp))]
  | t :: t' :: ts' =>
    intro gs h _
    show brCntGo none (t ++ brTag gs.headI ++ joinBr (t' :: ts') gs.tail) + 1 = _
    rw [List.append_assoc, brCntGo_none_plain t (h t (by simp))]
    have hstep : brCntGo none (brTag gs.headI ++ joinBr (t' :: ts') gs.tail) =
        1 + brCntGo none (joinBr (t' :: ts') gs.tail) := by
      cases gs.headI
      · exact brCntGo_br _
      · exact brCntGo_brSlash _
    rw [hstep]
    have ih : brCntGo none (joinBr (t' :: ts') gs.tail) + 1 = (t' :: ts').length :=
      brCount_joinBr (t' :: ts') gs.tail
        (fun u hu => h u (List.mem_cons_of_mem _ hu)) (by simp)
    simp only [List.length_cons] at ih ⊢
    omega

theorem brGo_none_plain : ∀ a : List Char, '<' ∉ a → ∀ b : List Char,
    brGo none (a ++ b) = a ++ brGo none b := by
  intro a
  induction a with
  | nil => intro _ b; rfl
  | cons c a ih =>
    intro h b
    have hc : c ≠ '<' := fun e => h (e ▸ List.mem_cons_self _ _)
    rw [List.cons_append]
    rcases hab : a ++ b with _ | ⟨d, rest⟩
    · rw [show brGo none [c] = [c] from by simp [brGo, hc]]
      obtain ⟨ha, hb⟩ := List.append_eq_nil.mp hab
      rw [ha, hb]
      rfl
    · rw [← hab]
      simp only [brGo, if_neg hc]
      rw [ih (fun m => h (List.mem_cons_of_mem _ m)) b]
      rfl

theorem brGo_br (z : List Char) :
    brGo none ('<' :: 'b' :: 'r' :: '>' :: z) = '\n' :: brGo none z := by
  simp [brGo]

theorem brGo_brSlash (z : List Char) :
    brGo none ('<' :: 'b' :: 'r' :: '/' :: '>' :: z) = '\n' :: brGo none z := by
  simp [brGo]

theorem brSub_joinBr : ∀ (ts : List (List Char)) (gs : List Bool),
    (∀ t ∈ ts, '<' ∉ t) → brSub (joinBr ts gs) = joinNl ts := by
  intro ts
  match ts with
  | [] => intro _ _; rfl
  | [t] =>
    intro gs h
    show brGo none t = t
    exact brGo_none_no_lt t (h t (by simp))
  | t :: t' :: ts' =>
    intro gs h
    show brGo none (t ++ brTag gs.headI ++ joinBr (t' :: ts') gs.tail) =
      t ++ '\n' :: joinNl (t' :: ts')
    rw [List.append_assoc, brGo_none_plain t (h t (by simp))]
    have hstep : brGo none (brTag gs.headI ++ joinBr (t' :: ts') gs.tail) =
        '\n' :: brGo none (joinBr (t' :: ts') gs.tail) := by
      cases gs.headI
      · exact brGo_br _
      · exact brGo_brSlash _
    rw [hstep]
    have ih : brGo none (joinBr (t' :: ts') gs.tail) = joinNl (t' :: ts') :=
      brSub_joinBr (t' :: ts') gs.tail (fun u hu => h u (List.mem_cons_of_mem _ hu))
    rw [ih]

theorem not_mem_joinNl {c : Char} (hc : c ≠ '\n') : ∀ ts : List (List Char),
    (∀ t ∈ ts, c ∉ t) → c ∉ joinNl ts := by
  intro ts
  match ts with
  | [] => intro _ h; simp [joinNl] at h
  | [t] => intro h; exact h t (by simp)
  | t :: t' :: ts' =>
    intro h hmem
    simp only [joinNl] at hmem
    rcases List.mem_append.mp hmem with h1 | h1
    · exact h t (by simp) h1
    · rcases List.mem_cons.mp h1 with h2 | h2
      · exact hc h2
      · exact not_mem_joinNl hc (t' :: ts')
          (fun u hu => h u (List.mem_cons_of_mem _ hu)) h2

theorem cNLGo_noNl : ∀ s buf : List Char, '\n' ∉ s → '\n' ∉ buf →
    cNLGo buf s = buf ++ s := by
  intro s
  induction s with
  | nil =>
    intro buf _ hbuf
    simp only [cNLGo, flushNL]
    rw [if_neg (fun hc => hbuf ((contains_nl_iff buf).mp hc)), List.append_nil]
  | cons c cs ih =>
    intro buf hs hbuf
    have hc : c ≠ '\n' := fun e => hs (e ▸ List.mem_cons_self _ _)
    have hcs : '\n' ∉ cs := fun m => hs (List.mem_cons_of_mem _ m)
    by_cases hw : isPySpace c = true
    · simp only [cNLGo, if_pos hw]
      rw [ih (buf ++ [c]) hcs ?_]
      · rw [List.append_assoc, List.singleton_append]
      · intro m
        rcases List.mem_append.mp m with h | h
        · exact hbuf h
        · simp at h; exact hc h.symm
    · simp only [cNLGo, if_neg hw]
      rw [show flushNL buf = buf from by
        unfold flushNL
        rw [if_neg (fun hcon => hbuf ((contains_nl_iff buf).mp hcon))]]
      rw [ih [] hcs (by simp)]
      simp

theorem cNLGo_ws_absorb : ∀ w : List Char, (∀ c ∈ w, isPySpace c = true) →
    ∀ buf s : List Char, cNLGo buf (w ++ s) = cNLGo (buf ++ w) s := by
  intro w
  induction w with
  | nil => intro _ buf s; simp
  | cons c w' ih =>
    intro h buf s
    rw [List.cons_append]
    simp only [cNLGo, if_pos (h c (List.mem_cons_self _ _))]
    rw [ih (fun d hd => h d (List.mem_cons_of_mem _ hd)) (buf ++ [c]) s]
    rw [List.append_assoc, List.singleton_append]

theorem cNLGo_nlbuf : ∀ b buf : List Char, buf.contains '\n' = true →
    cNLGo buf b = '\n' :: cNLGo [] (b.dropWhile isPySpace) := by
  intro b
  induction b with
  | nil =>
    intro buf hc
    simp only [cNLGo, List.dropWhile_nil]
    rw [flushNL, if_pos hc]
    rfl
  | cons c cs ih =>
    intro buf hc
    by_cases hcw : isPySpace c = true
    · simp only [cNLGo, if_pos hcw]
      rw [List.dropWhile_cons, if_pos hcw]
      apply ih
      exact (contains_nl_iff _).mpr (List.mem_append_left _ ((contains_nl_iff _).mp hc))
    · simp only [cNLGo, if_neg hcw]
      rw [flushNL, if_pos hc]
      rw [List.dropWhile_cons, if_neg (by simp [hcw])]
      simp only [cNLGo, if_neg hcw]
      rfl

theorem takeWhile_append_all {p : Char → Bool} : ∀ x z : List Char,
    (∀ c ∈ x, p c = true) → (x ++ z).takeWhile p = x ++ z.takeWhile p := by
  intro x
  induction x with
  | nil => intro z _; rfl
  | cons c x ih =>
    intro z h
    rw [List.cons_append, List.takeWhile_cons, if_pos (h c (List.mem_cons_self _ _)),
      ih z (fun d hd => h d (List.mem_cons_of_mem _ hd)), List.cons_append]

theorem cNL_split (a : List Char) (ha : '\n' ∉ a) (b : List Char) :
    cNLGo [] (a ++ '\n' :: b) =
      pyRTrim a ++ '\n' :: cNLGo [] (b.dropWhile isPySpace) := by
  by_cases hall : ∀ c ∈ a, isPySpace c = true
  · rw [cNLGo_ws_absorb a hall [] ('\n' :: b)]
    simp only [List.nil_append]
    rw [show cNLGo a ('\n' :: b) = cNLGo (a ++ ['\n']) b from by
      simp only [cNLGo, if_pos (by decide : isPySpace '\n' = true)]]
    rw [cNLGo_nlbuf b (a ++ ['\n'])
      ((contains_nl_iff _).mpr (List.mem_append_right _ (by simp)))]
    rw [pyRTrim_all_ws hall]
    rfl
  · push_neg at hall
    obtain ⟨c0, hc0mem, hc0⟩ := hall
    rcases hdw : a.dropWhile isPySpace with _ | ⟨d, a''⟩
    · exfalso
      have hws := List.dropWhile_eq_nil_iff.mp hdw
      exact hc0 (hws c0 hc0mem)
    · have hd : isPySpace d = false := dropWhile_head_neg a hdw
      have hatw : a = a.takeWhile isPySpace ++ d :: a'' := by
        conv_lhs => rw [← List.takeWhile_append_dropWhile isPySpace a]
        rw [hdw]
      have htwws : ∀ c ∈ a.takeWhile isPySpace, isPySpace c = true :=
        fun c hc => List.mem_takeWhile_imp hc
      have hnl'' : '\n' ∉ a'' := by
        intro hm
        apply ha
        rw [hatw]
        exact List.mem_append_right _ (List.mem_cons_of_mem _ hm)
      have hrec := cNL_split a'' hnl'' b
      have hflt : flushNL (a.takeWhile isPySpace) = a.takeWhile isPySpace := by
        unfold flushNL
        rw [if_neg (fun hcon => ha ((List.takeWhile_sublist isPySpace).subset
          ((contains_nl_iff _).mp hcon)))]
      have hd' : ¬ isPySpace d = true := by simp [hd]
      calc cNLGo [] (a ++ '\n' :: b)
          = cNLGo [] (a.takeWhile isPySpace ++ (d :: (a'' ++ '\n' :: b))) := by
            conv_lhs => rw [hatw]
            simp
        _ = cNLGo (a.takeWhile isPySpace) (d :: (a'' ++ '\n' :: b)) := by
            rw [cNLGo_ws_absorb _ htwws [] _]; simp
        _ = a.takeWhile isPySpace ++ d :: cNLGo [] (a'' ++ '\n' :: b) := by
            simp only [cNLGo, if_neg hd']
            rw [hflt]
        _ = a.takeWhile isPySpace ++ d ::
              (pyRTrim a'' ++ '\n' :: cNLGo [] (b.dropWhile isPySpace)) := by rw [hrec]
        _ = pyRTrim a ++ '\n' :: cNLGo [] (b.dropWhile isPySpace) := by
            rw [hatw, pyRTrim_append_right ⟨d, List.mem_cons_self _ _, hd⟩,
              pyRTrim_cons_nonws hd]
            simp
            rw [takeWhile_append_all _ _ htwws, List.takeWhile_cons, if_neg hd']
            simp
termination_by a.length
decreasing_by
  rw [hatw]
  simp
  omega

theorem dropWhile_joinNl {u' : List Char} (hw : ∃ c ∈ u', isPySpace c = false)
    (us'' : List (List Char)) :
    (joinNl (u' :: us'')).dropWhile isPySpace =
      joinNl (u'.dropWhile isPySpace :: us'') := by
  rcases us'' with _ | ⟨v, us3⟩
  · rfl
  · show (u' ++ '\n' :: joinNl (v :: us3)).dropWhile isPySpace =
      u'.dropWhile isPySpace ++ '\n' :: joinNl (v :: us3)
    exact dropWhile_append_stop _ hw

theorem cNL_joinNl_spec : ∀ us : List (List Char), us ≠ [] →
    (∀ u ∈ us, '\n' ∉ u ∧ ∃ c ∈ u, isPySpace c = false) →
    ((cNLGo [] (joinNl us)).count '\n' = us.length - 1 ∧
     '\n' ∉ (cNLGo [] (joinNl us)).takeWhile isPySpace ∧
     '\n' ∉ (cNLGo [] (joinNl us)).reverse.takeWhile isPySpace ∧
     ∃ c ∈ cNLGo [] (joinNl us), isPySpace c = false) := by
  intro us
  match us with
  | [] => intro h _; exact absurd rfl h
  | [u] =>
    intro _ h
    obtain ⟨hnl, hex⟩ := h u (by simp)
    have hval : cNLGo [] (joinNl [u]) = u := by
      show cNLGo [] u = u
      rw [cNLGo_noNl u [] hnl (by simp)]
      simp
    rw [hval]
    refine ⟨by simp [List.count_eq_zero.mpr hnl], ?_, ?_, hex⟩
    · intro hm
      exact hnl ((List.takeWhile_sublist isPySpace).subset hm)
    · intro hm
      exact hnl (List.mem_reverse.mp ((List.takeWhile_sublist isPySpace).subset hm))
  | u :: u' :: us'' =>
    intro _ h
    obtain ⟨hnl, hex⟩ := h u (by simp)
    obtain ⟨hnl', hex'⟩ := h u' (by simp)
    have hjoin : joinNl (u :: u' :: us'') = u ++ '\n' :: joinNl (u' :: us'') := rfl
    have hsplit : cNLGo [] (joinNl (u :: u' :: us'')) =
        pyRTrim u ++ '\n' :: cNLGo [] ((joinNl (u' :: us'')).dropWhile isPySpace) := by
      rw [hjoin]
      exact cNL_split u hnl (joinNl (u' :: us''))
    rw [dropWhile_joinNl hex' us''] at hsplit
    have hhyps : ∀ v ∈ u'.dropWhile isPySpace :: us'',
        '\n' ∉ v ∧ ∃ c ∈ v, isPySpace c = false := by
      intro v hv
      rcases List.mem_cons.mp hv with rfl | hv'
      · constructor
        · intro hm
          exact hnl' ((List.dropWhile_sublist isPySpace).subset hm)
        · obtain ⟨c, hc, hcw⟩ := hex'
          exact ⟨c, mem_dropWhile_of_neg hcw u' hc, hcw⟩
      · exact h v (List.mem_cons_of_mem _ (List.mem_cons_of_mem _ hv'))
    obtain ⟨ihcnt, ihtw, ihrtw, ihex⟩ :=
      cNL_joinNl_spec (u'.dropWhile isPySpace :: us'') (by simp) hhyps
    have hnlr : '\n' ∉ pyRTrim u := fun hm => hnl (pyRTrim_subset hm)
    have hexr : ∃ c ∈ pyRTrim u, isPySpace c = false := by
      obtain ⟨c, hc, hcw⟩ := hex
      exact ⟨c, mem_pyRTrim hcw hc, hcw⟩
    refine ⟨?_, ?_, ?_, ?_⟩
    · rw [hsplit]
      rw [List.count_append, List.count_cons, List.count_eq_zero.mpr hnlr, ihcnt]
      simp only [List.length_cons]
      simp
    · rw [hsplit]
      rw [takeWhile_append_stop _ hexr]
      intro hm
      exact hnlr ((List.takeWhile_sublist isPySpace).subset hm)
    · rw [hsplit]
      rw [show (pyRTrim u ++ '\n' ::
          cNLGo [] (joinNl (u'.dropWhile isPySpace :: us''))).reverse =
        (cNLGo [] (joinNl (u'.dropWhile isPySpace :: us''))).reverse ++
          '\n' :: (pyRTrim u).reverse from by
        rw [List.reverse_append, List.reverse_cons, List.append_assoc]
        simp]
      have hexrev : ∃ c ∈ (cNLGo [] (joinNl (u'.dropWhile isPySpace :: us''))).reverse,
          isPySpace c = false := by
        obtain ⟨c, hc, hcw⟩ := ihex
        exact ⟨c, List.mem_reverse.mpr hc, hcw⟩
      rw [takeWhile_append_stop _ hexrev]
      exact ihrtw
    · rw [hsplit]
      obtain ⟨c, hc, hcw⟩ := hexr
      exact ⟨c, List.mem_append_left _ hc, hcw⟩
termination_by us => us.length

theorem count_dropWhile_eq {L : List Char} (h : '\n' ∉ L.takeWhile isPySpace) :
    (L.dropWhile isPySpace).count '\n' = L.count '\n' := by
  conv_rhs => rw [← List.takeWhile_append_dropWhile isPySpace L]
  rw [List.count_append, List.count_eq_zero.mpr h]
  simp

theorem count_pyStrip_eq {r : List Char}
    (h1 : '\n' ∉ r.takeWhile isPySpace)
    (h2 : '\n' ∉ r.reverse.takeWhile isPySpace)
    (h3 : ∃ c ∈ r, isPySpace c = false) :
    (pyStrip r).count '\n' = r.count '\n' := by
  have hl : (pyLTrim r).count '\n' = r.count '\n' := count_dropWhile_eq h1
  have hwit : ∃ c ∈ pyLTrim r, isPySpace c = false := by
    obtain ⟨c, hc, hcw⟩ := h3
    exact ⟨c, mem_dropWhile_of_neg hcw r hc, hcw⟩
  have hdecomp : r.reverse = (pyLTrim r).reverse ++ (r.takeWhile isPySpace).reverse := by
    conv_lhs => rw [← List.takeWhile_append_dropWhile isPySpace r]
    rw [List.reverse_append]
    rfl
  have hwit' : ∃ c ∈ (pyLTrim r).reverse, isPySpace c = false := by
    obtain ⟨c, hc, hcw⟩ := hwit
    exact ⟨c, List.mem_reverse.mpr hc, hcw⟩
  have h2' : '\n' ∉ ((pyLTrim r).reverse).takeWhile isPySpace := by
    have hstop := takeWhile_append_stop (p := isPySpace)
      ((r.takeWhile isPySpace).reverse) hwit'
    rw [← hdecomp] at hstop
    rw [← hstop]
    exact h2
  show (pyRTrim (pyLTrim r)).count '\n' = _
  unfold pyRTrim
  rw [List.count_reverse]
  rw [count_dropWhile_eq h2']
  rw [List.count_reverse]
  exact hl

/-- C5 amended: for inputs that consist of plain-text chunks joined by
`<br>`/`<br/>` tags (either form at each gap), where each chunk contains no
`<`, `&` or newline and at least one non-whitespace character, the
normalized output's line count is the number of `br` tags plus one.  (The
unrestricted claim is refuted by `C5_counterexample`: blank or missing
chunks make the normalizer collapse or strip the corresponding newlines.) -/
theorem C5_line_count (ts : List (List Char)) (gs : List Bool) (hne : ts ≠ [])
    (hplain : ∀ t ∈ ts, '<' ∉ t ∧ '&' ∉ t ∧ '\n' ∉ t ∧ ∃ c ∈ t, isPySpace c = false) :
    (splitNl (html_to_text (joinBr ts gs))).length = brCount (joinBr ts gs) + 1 := by
  have hlt : ∀ t ∈ ts, '<' ∉ t := fun t ht => (hplain t ht).1
  have hamp : ∀ t ∈ ts, '&' ∉ t := fun t ht => (hplain t ht).2.1
  have hjb : joinBr ts gs ≠ [] := by
    rcases ts with _ | ⟨t, ts'⟩
    · exact absurd rfl hne
    · obtain ⟨c, hc, -⟩ := (hplain t (by simp)).2.2.2
      have ht : t ≠ [] := fun e => by rw [e] at hc; simp at hc
      rcases ts' with _ | ⟨t', ts''⟩
      · exact ht
      · show t ++ brTag gs.headI ++ joinBr (t' :: ts'') gs.tail ≠ []
        simp [ht]
  have hbr : brSub (joinBr ts gs) = joinNl ts := brSub_joinBr ts gs hlt
  have hjlt : '<' ∉ joinNl ts := not_mem_joinNl (by decide) ts hlt
  have hjamp : '&' ∉ joinNl ts := not_mem_joinNl (by decide) ts hamp
  have hval : html_to_text (joinBr ts gs) =
      pyStrip (cNLGo [] (joinNl (ts.map (cSpGo false)))) := by
    rw [html_to_text, if_neg hjb, hbr, stripTags_no_lt hjlt, entities_id hjamp]
    show pyStrip (cNLGo [] (cSpGo false (joinNl ts))) = _
    rw [cSp_joinNl]
  have hus_hyp : ∀ u ∈ ts.map (cSpGo false), '\n' ∉ u ∧ ∃ c ∈ u, isPySpace c = false := by
    intro u hu
    obtain ⟨t, ht, rfl⟩ := List.mem_map.mp hu
    obtain ⟨-, -, hnl, c, hc, hcw⟩ := hplain t ht
    refine ⟨not_mem_cSpGo (by decide) t false hnl, c, ?_, hcw⟩
    apply mem_cSpGo ?_ t false hc
    cases hh : isHoriz c
    · rfl
    · exfalso
      rcases (by simpa [isHoriz] using hh : c = ' ' ∨ c = '\t') with rfl | rfl
      · exact absurd hcw (by decide)
      · exact absurd hcw (by decide)
  have hus_ne : ts.map (cSpGo false) ≠ [] := by
    intro h
    exact hne (List.map_eq_nil_iff.mp h)
  obtain ⟨hcnt, htw, hrtw, hex⟩ :=
    cNL_joinNl_spec (ts.map (cSpGo false)) hus_ne hus_hyp
  have hstripcnt := count_pyStrip_eq htw hrtw hex
  rw [hval, splitNl_length, hstripcnt, hcnt]
  have hbc := brCount_joinBr ts gs hlt hne
  have hlen : (ts.map (cSpGo false)).length = ts.length := List.length_map _ _
  rw [hlen]
  omega

/-- Witness for C5 amended: two plain chunks joined by one `<br/>` tag give
two lines. -/
theorem C5_witness :
    (splitNl (html_to_text (joinBr ["a".data, "b".data] [true]))).length =
      brCount (joinBr ["a".data, "b".data] [true]) + 1 :=
  C5_line_count ["a".data, "b".data] [true] (by decide) (by decide)

end Gazette
